import Mathlib

/-!
# Verification of the govydoc type-documentation correlation engine

A shallow embedding of the core of the `govydoc` repository:

* `internal/typeinfo` — `Get`, `getKindString` (type-descriptor extraction),
* the `objectMapper.Map` structural graph walker,
* `generateObjectDoc` / `findPropertyChildrenPaths` (children-path pass),
* `postProcessProperties` and the three text transforms of `properties.go`,
* the `godoc` `Parser.parse` / `Parser.Parse` documentation correlator.

Go's `reflect.Type` graph is modelled as an index-addressed environment
(`TypeEnv`), so that self-referential Go types (`type Node struct { Next *Node }`,
`type T []T`) are representable.  Every graph-recursive Go function is embedded
with an explicit fuel parameter; `none` means the recursion exhausted every
finite budget, i.e. the Go original does not terminate on that input.
All recursions are structural, so every definition evaluates by `rfl`/`decide`.
-/

namespace Govydoc

/-! ## Models of the Go standard-library string helpers used by the repository

Strings are handled through their character lists.  `chIsSpace` covers the
ASCII whitespace recognised by both `unicode.IsSpace` and `\s` that actually
occurs in doc comments (space, tab, newline, carriage return).
-/

def chIsSpace (c : Char) : Bool :=
  c = ' ' || c = '\t' || c = '\n' || c = '\r'

/-- Model of `strings.Split(s, sep)` for a single-character separator
(the repository only splits on `","` and the regexes only on line starts).
Like Go's `strings.Split`, it never returns an empty list: splitting the
empty string yields `[""]`. -/
def goSplitAux (sep : Char) : List Char → List Char → List (List Char)
  | [], acc => [acc.reverse]
  | c :: t, acc =>
    if c = sep then acc.reverse :: goSplitAux sep t [] else goSplitAux sep t (c :: acc)

def goSplit (s : String) (sep : Char) : List String :=
  (goSplitAux sep s.data []).map String.mk

/-- Model of `strings.Contains(s, needle)` for a one-character needle. -/
def containsChar (s : String) (c : Char) : Bool :=
  s.data.contains c

/-- Model of `strings.CutPrefix`. -/
def cutPrefix (s pre : String) : Option String :=
  if pre.data.isPrefixOf s.data then some (String.mk (s.data.drop pre.data.length)) else none

def trimLeftL (l : List Char) : List Char := l.dropWhile chIsSpace

def trimRightL (l : List Char) : List Char := (l.reverse.dropWhile chIsSpace).reverse

/-- Model of `strings.TrimSpace`. -/
def goTrim (s : String) : String := String.mk (trimRightL (trimLeftL s.data))

/-- `hasSub pat l`: the pattern occurs as a contiguous substring of `l`
(used to model regexp literal search). -/
def hasSub (pat : List Char) : List Char → Bool
  | [] => decide (pat = [])
  | c :: t => pat.isPrefixOf (c :: t) || hasSub pat t

/-- Model of `regexp.MustCompile("(?s)ENUM(.*)").ReplaceAllString(s, "")`:
the leftmost match starts at the first occurrence of the literal `ENUM` and —
with `(?s)` — extends to the end of the text, so replacement keeps exactly
the prefix before the first occurrence (or the whole text if there is none). -/
def stripFromSub (pat : List Char) : List Char → List Char
  | [] => []
  | c :: t => if pat.isPrefixOf (c :: t) then [] else c :: stripFromSub pat t

def enumPat : List Char := ("ENUM").data

def deprPat : List Char := ("Deprecated:").data

/-- The lines of a string (model of the `(?m)` line anchors: `^`/`$` match
at `\n` boundaries). -/
def linesOf (s : String) : List (List Char) :=
  goSplitAux '\n' s.data []

def joinLinesL : List (List Char) → List Char
  | [] => []
  | [l] => l
  | l :: ls => l ++ '\n' :: joinLinesL ls

/-- A line matched by `(?m)^Deprecated:\s*(.*)$`: it starts with the literal
marker.  (The capture group then starts after the following whitespace.) -/
def isDeprLine (l : List Char) : Bool := deprPat.isPrefixOf l

/-- Model of `deprecatedRegex.MatchString`. -/
def deprMatches (s : String) : Bool := (linesOf s).any isDeprLine

def firstDeprLine : List (List Char) → Option (List Char)
  | [] => none
  | l :: ls => if isDeprLine l then some l else firstDeprLine ls

/-- Model of `deprecatedRegex.FindStringSubmatch(s)[1]`: the remainder of the
first matching line after the marker and the `\s*` run. -/
def deprCapture (s : String) : Option String :=
  (firstDeprLine (linesOf s)).map (fun l => String.mk ((l.drop deprPat.length).dropWhile chIsSpace))

/-- Model of `strings.TrimSpace(deprecatedRegex.ReplaceAllString(s, ""))`:
every matching line-span is replaced by the empty string (the line anchors are
zero-width, so the surrounding newlines survive) and the result is trimmed. -/
def deprClean (s : String) : String :=
  goTrim (String.mk (joinLinesL ((linesOf s).map (fun l => if isDeprLine l then [] else l))))

/-! ## The runtime type graph

`TypeEnv` is an index-addressed model of the set of `reflect.Type` values
reachable from a root: a type refers to other types by index, which makes
self-referential Go types representable.  `str` is the value of
`reflect.Type.String()`; `scalar`'s argument is `Kind().String()` for the
non-composite kinds.  A struct's field list models the (identical, for the
embedding-free structs at issue) results of `reflect.VisibleFields` and
`Type.Field(i)`, each with its declared name, its raw `json` tag value and
its exportedness. -/

structure StructField where
  name : String
  tag : String
  exported : Bool
  typ : Nat

inductive TypeShape where
  | ptr (elem : Nat)
  | slice (elem : Nat)
  | mapping (key elem : Nat)
  | strukt (fields : List StructField)
  | scalar (kindStr : String)

structure GoType where
  name : String
  pkgPath : String
  str : String
  shape : TypeShape

abbrev TypeEnv : Type := List GoType

/-- `reflect.Type` reference lookup (index into the environment). -/
def envGet (env : TypeEnv) (i : Nat) : Option GoType := env.get? i

/-- The single-level pointer unwrap (`if typ.Kind() == reflect.Ptr { typ = typ.Elem() }`). -/
def unwrapPtr (tid0 : Nat) : TypeShape → Nat
  | .ptr e => e
  | _ => tid0

/-- The single-level pointer/slice unwrap of the correlator
(`case reflect.Pointer, reflect.Slice: goType = goType.Elem()`). -/
def unwrapPtrSlice (tid0 : Nat) : TypeShape → Nat
  | .ptr e => e
  | .slice e => e
  | _ => tid0

def shapeRefs : TypeShape → List Nat
  | .ptr e => [e]
  | .slice e => [e]
  | .mapping k v => [k, v]
  | .strukt fs => fs.map (fun f => f.typ)
  | .scalar _ => []

/-- Every cross-type reference stays inside the environment. -/
def WfEnv (env : TypeEnv) : Prop :=
  ∀ p ∈ env.enum, ∀ j ∈ shapeRefs (p.2).shape, j < env.length

/-- A rank function witnessing that the type graph is acyclic: every reference
strictly decreases the rank (no type directly or transitively refers back to
itself). -/
def RankOk (env : TypeEnv) (rk : Nat → Nat) : Prop :=
  ∀ p ∈ env.enum, ∀ j ∈ shapeRefs (p.2).shape, rk j < rk (p.1)

instance (env : TypeEnv) : Decidable (WfEnv env) :=
  inferInstanceAs (Decidable (∀ p ∈ env.enum, ∀ j ∈ shapeRefs (p.2).shape, j < env.length))

instance (env : TypeEnv) (rk : Nat → Nat) : Decidable (RankOk env rk) :=
  inferInstanceAs (Decidable (∀ p ∈ env.enum, ∀ j ∈ shapeRefs (p.2).shape, rk j < rk (p.1)))

/-! ## `internal/typeinfo` -/

structure TypeInfo where
  Name : String
  Kind : String
  Package : String
deriving DecidableEq, Repr

/-- Embedding of `getKindString` (type_info.go).  The map and slice cases
recurse into the key/element kinds; every other kind collapses to
`Kind().String()`.  Fuel bounds the recursion depth: `none` means the Go
function recurses forever (possible for `type T []T`). -/
def getKindString (env : TypeEnv) : Nat → Nat → Option String
  | 0, _ => none
  | fuel + 1, tid =>
    match envGet env tid with
    | none => none
    | some t =>
      match t.shape with
      | .mapping k v =>
        match getKindString env fuel k, getKindString env fuel v with
        | some ks, some vs => some (("map[") ++ ks ++ ("]") ++ vs)
        | _, _ => none
      | .slice e => (getKindString env fuel e).map (fun es => ("[]") ++ es)
      | .ptr _ => some (("ptr"))
      | .strukt _ => some (("struct"))
      | .scalar k => some k

/-- Embedding of `typeinfo.Get`.  `none` as the type argument models a nil
`reflect.Type` (zero-value result); `none` as the overall result means the
kind computation diverged. -/
def typeinfoGet (env : TypeEnv) (fuel : Nat) : Option Nat → Option TypeInfo
  | none => some { Name := (""), Kind := (""), Package := ("") }
  | some tid0 =>
    match envGet env tid0 with
    | none => none
    | some t0 =>
      match envGet env (unwrapPtr tid0 t0.shape) with
      | none => none
      | some t =>
        match getKindString env fuel (unwrapPtr tid0 t0.shape) with
        | none => none
        | some kind =>
          if t.pkgPath = ("") then
            match t.shape with
            | .slice e =>
              -- unnamed slice: keep the "[]" marker and move to the element type
              match envGet env e with
              | none => none
              | some te =>
                if te.pkgPath = ("") then
                  some { Name := ("[]") ++ te.str, Kind := kind, Package := ("") }
                else
                  some { Name := ("[]") ++ te.name, Kind := kind, Package := te.pkgPath }
            | _ => some { Name := t.str, Kind := kind, Package := ("") }
          else some { Name := t.name, Kind := kind, Package := t.pkgPath }

/-! ## The structural graph walker (`objectMapper.Map`) -/

structure PropertyDoc where
  Path : String
  TypeInfo : TypeInfo
  TypeDoc : String
  FieldDoc : String
  DeprecatedDoc : String
  ChildrenPaths : List String
deriving DecidableEq, Repr

/-- The property node `Map` emits for one type (its `doc` local: the path and
the extracted type descriptor; documentation fields are filled in later). -/
def mkNode (path : String) (ti : TypeInfo) : PropertyDoc :=
  { Path := path, TypeInfo := ti, TypeDoc := (""), FieldDoc := (""),
    DeprecatedDoc := (""), ChildrenPaths := [] }

/-- The struct-field loop of `Map`: for each visible field, split the `json`
tag on commas; skip the field when the first component is empty or `"-"`,
otherwise walk its type at `path + "." + name`.  `g` is the recursive call
to `Map` at the remaining fuel. -/
def walkFields (g : Nat → String → Option (List PropertyDoc)) (path : String) :
    List StructField → Option (List PropertyDoc)
  | [] => some []
  | f :: fs =>
    match goSplit f.tag ',' with
    | [] => walkFields g path fs
    | name :: _ =>
      if name = ("") || name = ("-") then walkFields g path fs
      else
        match g f.typ (path ++ (".") ++ name) with
        | none => none
        | some a =>
          match walkFields g path fs with
          | none => none
          | some b => some (a ++ b)

/-- Embedding of `objectMapper.Map`: unwrap one pointer level, emit a node for
the type at `path`, then recurse per kind (struct members by output name,
slice element at `path ++ "[*]"`, map key/value at `path ++ ".~"` / `".*"`).
The returned list is the walk's append order.  `none` means the walk never
terminates (no cycle guard exists in the source). -/
def mapGo (env : TypeEnv) : Nat → Nat → String → Option (List PropertyDoc)
  | 0, _, _ => none
  | fuel + 1, tid0, path =>
    match envGet env tid0 with
    | none => none
    | some t0 =>
      match envGet env (unwrapPtr tid0 t0.shape) with
      | none => none
      | some t =>
        match typeinfoGet env (fuel + 1) (some (unwrapPtr tid0 t0.shape)) with
        | none => none
        | some ti =>
          match t.shape with
          | .strukt fs =>
            (walkFields (fun i p => mapGo env fuel i p) path fs).map
              (fun l => mkNode path ti :: l)
          | .slice e =>
            (mapGo env fuel e (path ++ ("[*]"))).map (fun l => mkNode path ti :: l)
          | .mapping k v =>
            match mapGo env fuel k (path ++ (".~")), mapGo env fuel v (path ++ (".*")) with
            | some a, some b => some (mkNode path ti :: (a ++ b))
            | _, _ => none
          | _ => some [mkNode path ti]

/-! ## `object_doc.go` -/

structure ObjectDoc where
  Name : String
  Properties : List PropertyDoc
  Doc : String
deriving DecidableEq, Repr

/-- Embedding of `findPropertyChildrenPaths`: a property is an immediate child
of `parent` iff its path extends `parent ++ "."` by a dot-free remainder. -/
def findPropertyChildrenPaths (parent : String) (properties : List PropertyDoc) : List String :=
  properties.filterMap (fun property =>
    match cutPrefix property.Path (parent ++ (".")) with
    | none => none
    | some rel => if containsChar rel '.' then none else some (parent ++ (".") ++ rel))

/-- The pointer unwrap `generateObjectDoc` performs on the root type before
starting the walk. -/
def rootUnwrap (env : TypeEnv) (tid0 : Nat) : Nat :=
  match envGet env tid0 with
  | some t => unwrapPtr tid0 t.shape
  | none => tid0

/-- Embedding of `generateObjectDoc`: unwrap one pointer level, run the walker
from `"$"`, then attach children paths.  (The Go loop updates the slice in
place while iterating, but `findPropertyChildrenPaths` only reads `Path`,
which the update never changes, so the in-place loop equals a map over the
original list.) -/
def generateObjectDocF (env : TypeEnv) (fuel : Nat) (tid0 : Nat) : Option ObjectDoc :=
  match mapGo env fuel (rootUnwrap env tid0) ("$") with
  | none => none
  | some props =>
    some { Name := (""), Doc := (""),
           Properties := props.map (fun p =>
             { p with ChildrenPaths := findPropertyChildrenPaths p.Path props }) }

/-! ## `properties.go` -/

/-- Embedding of `removeEnumDeclaration`. -/
def removeEnumDeclaration (doc : PropertyDoc) : PropertyDoc :=
  { doc with TypeDoc := String.mk (stripFromSub enumPat doc.TypeDoc.data) }

/-- Embedding of `removeTrailingWhitespace`. -/
def removeTrailingWhitespace (doc : PropertyDoc) : PropertyDoc :=
  { doc with TypeDoc := goTrim doc.TypeDoc, FieldDoc := goTrim doc.FieldDoc }

/-- Embedding of `extractDeprecatedInformation`: the `switch` prefers the type
doc; the field doc is consulted only when the type doc has no match. -/
def extractDeprecatedInformation (doc : PropertyDoc) : PropertyDoc :=
  if deprMatches doc.TypeDoc then
    { doc with
      DeprecatedDoc := (match deprCapture doc.TypeDoc with
                        | some c => goTrim c
                        | none => doc.DeprecatedDoc),
      TypeDoc := deprClean doc.TypeDoc }
  else if deprMatches doc.FieldDoc then
    { doc with
      DeprecatedDoc := (match deprCapture doc.FieldDoc with
                        | some c => goTrim c
                        | none => doc.DeprecatedDoc),
      FieldDoc := deprClean doc.FieldDoc }
  else doc

def applyFormatters (fmts : List (PropertyDoc → PropertyDoc)) (p : PropertyDoc) : PropertyDoc :=
  fmts.foldl (fun a f => f a) p

def ppAux (filterProperties : List String) (fmts : List (PropertyDoc → PropertyDoc)) :
    List PropertyDoc → List PropertyDoc
  | [] => []
  | p :: ps =>
    if filterProperties.contains p.Path then ppAux filterProperties fmts ps
    else applyFormatters fmts p :: ppAux filterProperties fmts ps

/-- Embedding of `postProcessProperties`.  The package-level exclusion list
(`filterProperties`, `["$.organization"]` in the source, extended by
caller-supplied filter paths in `Generate`) is passed explicitly; a property is
dropped iff its path is contained (by string equality, `slices.Contains`) in
that list, and the ordered formatters are applied to the survivors. -/
def postProcessProperties (filterProperties : List String) (doc : ObjectDoc)
    (fmts : List (PropertyDoc → PropertyDoc)) : ObjectDoc :=
  { doc with Properties := ppAux filterProperties fmts doc.Properties }

/-- The process-wide default exclusion list of `properties.go`. -/
def defaultFilterProperties : List String := [("$.organization")]

/-- The ordered transform sequence `Generate` passes to `postProcessProperties`. -/
def generateFormatters : List (PropertyDoc → PropertyDoc) :=
  [removeEnumDeclaration, extractDeprecatedInformation, removeTrailingWhitespace]

/-! ## The documentation correlator (`internal/godoc`)

`Doc` is godoc's `Doc` record; `Docs` models the Go map `map[string]Doc` as an
association list whose insert overwrites (a Go map holds one binding per key).
The declaration/comment store (`go/packages` + AST, an external collaborator
built by `NewParser`) is abstracted into `Store`: the set of loaded package
paths and, per qualified name, the declaration's doc comment text and — for
struct declarations — the AST field list.  `go/doc/comment` rendering
(`docCommentToMarkdown`'s non-trivial branch) is an opaque parameter
`render : pkgPath → rawText → markup`. -/

inductive Doc where
  | mk (Name Package DocText : String) (StructFields : List (String × Doc))

def Doc.Name : Doc → String
  | .mk n _ _ _ => n

def Doc.Package : Doc → String
  | .mk _ p _ _ => p

def Doc.DocText : Doc → String
  | .mk _ _ d _ => d

def Doc.StructFields : Doc → List (String × Doc)
  | .mk _ _ _ sf => sf

def Doc.withDocText : Doc → String → Doc
  | .mk n p _ sf, d => .mk n p d sf

def Doc.withStructFields : Doc → List (String × Doc) → Doc
  | .mk n p d _, sf => .mk n p d sf

/-- Go map assignment `m[k] = v`: overwrite the binding if present, else append. -/
def assocInsert {α : Type} : List (String × α) → String → α → List (String × α)
  | [], k, v => [(k, v)]
  | (k', v') :: t, k, v =>
    if k' = k then (k, v) :: t else (k', v') :: assocInsert t k v

def assocLookup {α : Type} : List (String × α) → String → Option α
  | [], _ => none
  | (k', v) :: t, k => if k' = k then some v else assocLookup t k

abbrev Docs : Type := List (String × Doc)

/-- `Doc.Key()`: the qualified name, or the bare name for builtins. -/
def docKey (d : Doc) : String :=
  if d.Package = ("") then d.Name else d.Package ++ (".") ++ d.Name

/-- `Docs.add`. -/
def docsAdd (m : Docs) (d : Doc) : Docs := assocInsert m (docKey d) d

/-- One field group of a struct declaration's AST: the declared names (empty
for an embedded member), the name derivable from an embedded member's type
expression (`addEmbeddedFieldToMap`'s three cases collapsed), and the doc
comment text attached to the group. -/
structure AstField where
  names : List String
  embeddedName : Option String
  docText : String

inductive DeclSpec where
  | structSpec (fields : List AstField)
  | otherSpec

structure DeclEntry where
  docText : String
  spec : DeclSpec

structure Store where
  pkgs : List String
  decls : List ((String × String) × DeclEntry)

def declLookup (st : Store) (pkgPath name : String) : Option DeclEntry :=
  (st.decls.find? (fun kv => kv.1.1 = pkgPath && kv.1.2 = name)).map (fun kv => kv.2)

/-- Embedding of `buildASTFieldMap` (+ `addEmbeddedFieldToMap`): a map from
declared field name to the field group's doc text — the only AST field
attribute `parseStructField` reads. -/
def buildASTFieldMap (fields : List AstField) : List (String × String) :=
  fields.foldl (fun m f =>
    let m' := f.names.foldl (fun m n => assocInsert m n f.docText) m
    if f.names.isEmpty then
      match f.embeddedName with
      | some n => assocInsert m' n f.docText
      | none => m'
    else m') []

/-- Embedding of `getStructFieldName`: empty for unexported fields; the first
`json` tag component when non-empty; `""` (suppressed) for `"-"`; the declared
name when the tag is absent or its first component empty. -/
def getStructFieldName (f : StructField) : String :=
  if !f.exported then ("")
  else
    match goSplit f.tag ',' with
    | [] => f.name
    | tagName :: _ =>
      if tagName = ("") then f.name
      else if tagName = ("-") then ("")
      else tagName

/-- Embedding of `docCommentToMarkdown`: empty text short-circuits, otherwise
the external `go/doc/comment` renderer (`render`) runs. -/
def docCommentToMarkdown (render : String → String → String) (pkg text : String) : String :=
  if text = ("") then ("") else render pkg text

inductive ParseErr where
  | badTypeRef (tid : Nat)
  | pkgNotFound (pkgPath name : String)
  | declNotFound (pkgPath name : String)
  | malformedStruct (name : String)
  | fieldErr (structName fieldName : String) (cause : ParseErr)
  | noDocumentation (tid : Nat)

/-- `docs.add(typeDoc); return &typeDoc` — registration of a completed entry,
with its qualified name appended to the ghost derivation log. -/
def registerDoc (docs : Docs) (log : List String) (d : Doc) :
    Except ParseErr (Doc × Docs × List String) :=
  .ok (d, docsAdd docs d, log ++ [docKey d])

/-- The field loop of `parseStructFields`/`parseStructField`.  For each runtime
field: recurse into the field's type **first** (`pf`, the recursive `parse` at
the remaining fuel, threading the accumulated docs map), then skip the field
when its output name is suppressed, else overwrite the field doc with the
member-position comment found by declared name and record it.  The third
result component is a ghost log of the qualified names whose entries complete
(`docs.add` sites), recording each full derivation; it influences nothing. -/
def parseFieldsAux
    (pf : Nat → Docs → List String → Option (Except ParseErr (Doc × Docs × List String)))
    (render : String → String → String)
    (structName pkgPath : String) (astMap : List (String × String)) :
    List StructField → List (String × Doc) → Docs → List String →
    Option (Except ParseErr (List (String × Doc) × Docs × List String))
  | [], sf, docs, log => some (.ok (sf, docs, log))
  | f :: fs, sf, docs, log =>
    match pf f.typ docs log with
    | none => none
    | some (.error e) => some (.error (.fieldErr structName f.name e))
    | some (.ok (fieldDoc, docs', log')) =>
      if getStructFieldName f = ("") then
        parseFieldsAux pf render structName pkgPath astMap fs sf docs' log'
      else
        parseFieldsAux pf render structName pkgPath astMap fs
          (assocInsert sf (getStructFieldName f)
            (match assocLookup astMap f.name with
             | some astDocText => fieldDoc.withDocText (docCommentToMarkdown render pkgPath astDocText)
             | none => fieldDoc)) docs' log'

/-- Embedding of `Parser.parse` (the refactored version: `parse`,
`getTypeDeclarationInfo`, `parseStructFields`, `parseStructField`).  Unwraps
one pointer/slice level; a builtin (empty package path) returns its zero doc
without touching the docs map; otherwise the declaration is looked up and its
comment rendered; struct fields are correlated through `parseFieldsAux` and
the completed entry is registered **after** the recursion finishes.  Fuel
bounds the recursion depth: `none` means the Go original recurses forever. -/
def parse (env : TypeEnv) (st : Store) (render : String → String → String) :
    Nat → Nat → Docs → List String → Option (Except ParseErr (Doc × Docs × List String))
  | 0, _, _, _ => none
  | fuel + 1, tid0, docs, log =>
    match envGet env tid0 with
    | none => some (.error (.badTypeRef tid0))
    | some t0 =>
      match envGet env (unwrapPtrSlice tid0 t0.shape) with
      | none => some (.error (.badTypeRef tid0))
      | some t =>
        if t.pkgPath = ("") then
          some (.ok (.mk t.name t.pkgPath ("") [], docs, log))
        else if !(st.pkgs.contains t.pkgPath) then
          some (.error (.pkgNotFound t.pkgPath t.name))
        else
          match declLookup st t.pkgPath t.name with
          | none => some (.error (.declNotFound t.pkgPath t.name))
          | some decl =>
            match t.shape with
            | .strukt fields =>
              match decl.spec with
              | .otherSpec => some (.error (.malformedStruct t.name))
              | .structSpec astFields =>
                match parseFieldsAux (fun i d l => parse env st render fuel i d l) render
                    t.name t.pkgPath (buildASTFieldMap astFields) fields [] docs log with
                | none => none
                | some (.error e) => some (.error e)
                | some (.ok (sf, docs', log')) =>
                  some (registerDoc docs' log'
                    (.mk t.name t.pkgPath (docCommentToMarkdown render t.pkgPath decl.docText) sf))
            | _ =>
              some (registerDoc docs log
                (.mk t.name t.pkgPath (docCommentToMarkdown render t.pkgPath decl.docText) []))

/-- Embedding of `Parser.Parse`: run `parse` on a fresh map; report an error
with a `nil` map, or the non-empty map with no error — never both. -/
def ParseGo (env : TypeEnv) (st : Store) (render : String → String → String)
    (fuel : Nat) (tid : Nat) : Option (Option Docs × Option ParseErr) :=
  match parse env st render fuel tid [] [] with
  | none => none
  | some (.error e) => some (none, some e)
  | some (.ok (_, m, _)) =>
    if m.length = 0 then some (none, some (.noDocumentation tid))
    else some (some m, none)

/-! ## Statement-level notions

`goodTagName` restates (for specification purposes) the walker's member
filter: the first `json` tag component when it is neither empty nor `"-"`.
`sfx`/`sfxFields` compute the walker's emitted paths relative to the start
path (the walker only ever appends to the path, so its output paths are the
start path followed by these suffixes — proven below, not assumed). -/

def goodTagName (f : StructField) : Option String :=
  match goSplit f.tag ',' with
  | [] => none
  | n :: _ => if n = ("") || n = ("-") then none else some n

def goodNames (fs : List StructField) : List String :=
  fs.filterMap goodTagName

/-- No path-separator characters: names free of `'.'` and `'['` keep the
walker's generated paths unambiguous. -/
def sepFreeL (l : List Char) : Bool :=
  !(l.contains '.') && !(l.contains '[')

/-- The sanity condition of one struct type: its walked member output names
are pairwise distinct and contain no path-separator characters. -/
def structNamesOk (t : GoType) : Bool :=
  match t.shape with
  | .strukt fs => decide (goodNames fs).Nodup && (goodNames fs).all (fun n => sepFreeL n.data)
  | _ => true

/-- The per-struct sanity conditions under which generated paths are unique:
within each struct the walked member output names are pairwise distinct and
contain no path-separator characters. -/
def EnvNamesOk (env : TypeEnv) : Prop :=
  ∀ t ∈ env, structNamesOk t = true

instance (env : TypeEnv) : Decidable (EnvNamesOk env) :=
  inferInstanceAs (Decidable (∀ t ∈ env, structNamesOk t = true))

/-- Non-empty and starting with a path-separator character. -/
def sepHeadB (s : String) : Bool :=
  match s.data with
  | [] => false
  | c :: _ => c = '.' || c = '['

def sfxFields (g : Nat → Option (List String)) : List StructField → Option (List String)
  | [] => some []
  | f :: fs =>
    match goSplit f.tag ',' with
    | [] => sfxFields g fs
    | name :: _ =>
      if name = ("") || name = ("-") then sfxFields g fs
      else
        match g f.typ with
        | none => none
        | some a =>
          match sfxFields g fs with
          | none => none
          | some b => some (a.map (fun s => (".") ++ name ++ s) ++ b)

/-- The walker's emitted paths relative to its start path (mirrors `mapGo`,
including its divergence and its type-info dependence). -/
def sfx (env : TypeEnv) : Nat → Nat → Option (List String)
  | 0, _ => none
  | fuel + 1, tid0 =>
    match envGet env tid0 with
    | none => none
    | some t0 =>
      match envGet env (unwrapPtr tid0 t0.shape) with
      | none => none
      | some t =>
        match typeinfoGet env (fuel + 1) (some (unwrapPtr tid0 t0.shape)) with
        | none => none
        | some _ =>
          match t.shape with
          | .strukt fs => (sfxFields (fun i => sfx env fuel i) fs).map (fun l => ("") :: l)
          | .slice e => (sfx env fuel e).map (fun l => ("") :: l.map (fun s => ("[*]") ++ s))
          | .mapping k v =>
            match sfx env fuel k, sfx env fuel v with
            | some a, some b =>
              some (("") :: (a.map (fun s => (".~") ++ s) ++ b.map (fun s => (".*") ++ s)))
            | _, _ => none
          | _ => some [("")]

def pathsOf (l : List PropertyDoc) : List String := l.map (fun p => p.Path)

/-- The `Doc` component of a `parse` result (used to state that an entry's
derivation is independent of the accumulated map). -/
def docPart (r : Option (Except ParseErr (Doc × Docs × List String))) :
    Option (Except ParseErr Doc) :=
  match r with
  | none => none
  | some (.error e) => some (.error e)
  | some (.ok (d, _, _)) => some (.ok d)

/-- The ghost derivation log of a `parse` result: the qualified names whose
entries were fully derived and registered, in completion order. -/
def logPart (r : Option (Except ParseErr (Doc × Docs × List String))) : List String :=
  match r with
  | some (.ok (_, _, log)) => log
  | _ => []

/-- A child-step path segment: what the walker appends for one structural
level (a named member, a sequence element, a mapping key or value). -/
def childSegment (seg : String) : Prop :=
  seg = ("[*]") ∨ seg = (".~") ∨ seg = (".*") ∨ ∃ n, n ≠ ("") ∧ seg = (".") ++ n

/-- A post-processed property with no remaining markers: no `ENUM` token in
the type doc and no `Deprecated:` line in either doc field.  On such
properties every transform of the pipeline is a fixed point. -/
def markerFree (p : PropertyDoc) : Prop :=
  hasSub enumPat p.TypeDoc.data = false ∧
  deprMatches p.TypeDoc = false ∧ deprMatches p.FieldDoc = false

instance (p : PropertyDoc) : Decidable (markerFree p) :=
  inferInstanceAs (Decidable (_ ∧ _ ∧ _))

/-- The well-formedness of the walker's relative path suffixes: pairwise
distinct, containing the root suffix, every non-root suffix starting with a
separator character, and every non-root suffix extending another suffix by one
child segment. -/
def GoodSuffixes (l : List String) : Prop :=
  l.Nodup ∧ ("") ∈ l ∧ (∀ s ∈ l, s = ("") ∨ sepHeadB s = true) ∧
  (∀ s ∈ l, s = ("") ∨ ∃ s' ∈ l, ∃ seg, childSegment seg ∧ s = s' ++ seg)

/-- The member-map component of a `parseFieldsAux` result (used to state that
the field fold's outcome is independent of the accumulated docs map). -/
def sfPart (r : Option (Except ParseErr (List (String × Doc) × Docs × List String))) :
    Option (Except ParseErr (List (String × Doc))) :=
  match r with
  | none => none
  | some (.error e) => some (.error e)
  | some (.ok (sf, _, _)) => some (.ok sf)

/-! ## Concrete type graphs, stores and documents used as inputs -/

/-- `int`. -/
def intT : GoType :=
  { name := ("int"), pkgPath := (""), str := ("int"), shape := .scalar ("int") }

/-- `string`. -/
def strT : GoType :=
  { name := ("string"), pkgPath := (""), str := ("string"), shape := .scalar ("string") }

/-- `type Node struct { Next *Node \x60json:"next"\x60 }` — a struct with a
pointer back to itself carrying an output name (index 0; index 1 is `*Node`). -/
def nodeT : GoType :=
  { name := ("Node"), pkgPath := ("p"), str := ("p.Node"),
    shape := .strukt [{ name := ("Next"), tag := ("next"), exported := true, typ := 1 }] }

def ptrNodeT : GoType :=
  { name := (""), pkgPath := (""), str := ("*p.Node"), shape := .ptr 0 }

def envNode : TypeEnv := [nodeT, ptrNodeT]

/-- A store holding `Node`'s declaration, so the correlator's cycle is reached. -/
def storeNode : Store :=
  { pkgs := [("p")],
    decls := [(((("p")), (("Node"))),
      { docText := ("Node doc"),
        spec := .structSpec [{ names := [("Next")], embeddedName := none, docText := ("") }] })] }

/-- The identity renderer (a concrete `go/doc/comment` stand-in). -/
def renderId : String → String → String := fun _ s => s

/-- `type T []T` — a named self-referential slice (legal Go). -/
def selfSliceT : GoType :=
  { name := ("T"), pkgPath := ("p"), str := ("p.T"), shape := .slice 0 }

def envTT : TypeEnv := [selfSliceT]

/-- `type B string` with a declaration, reachable only through a suppressed
member of `A`: `type A struct { X B \x60json:"-"\x60 }`. -/
def bNamedT : GoType :=
  { name := ("B"), pkgPath := ("p"), str := ("p.B"), shape := .scalar ("string") }

def aSuppT : GoType :=
  { name := ("A"), pkgPath := ("p"), str := ("p.A"),
    shape := .strukt [{ name := ("X"), tag := ("-"), exported := true, typ := 1 }] }

def envSupp : TypeEnv := [aSuppT, bNamedT]

def storeSupp : Store :=
  { pkgs := [("p")],
    decls := [(((("p")), (("A"))),
                { docText := ("A doc"),
                  spec := .structSpec [{ names := [("X")], embeddedName := none, docText := ("") }] }),
              (((("p")), (("B"))), { docText := ("B doc"), spec := .otherSpec })] }

/-- `type A struct { X B \x60json:"x"\x60; Y B \x60json:"y"\x60 }` — the same
named type referenced twice. -/
def aTwiceT : GoType :=
  { name := ("A"), pkgPath := ("p"), str := ("p.A"),
    shape := .strukt [{ name := ("X"), tag := ("x"), exported := true, typ := 1 },
                      { name := ("Y"), tag := ("y"), exported := true, typ := 1 }] }

def envTwice : TypeEnv := [aTwiceT, bNamedT]

def storeTwice : Store :=
  { pkgs := [("p")],
    decls := [(((("p")), (("A"))),
                { docText := ("A doc"),
                  spec := .structSpec [{ names := [("X")], embeddedName := none, docText := ("") },
                                       { names := [("Y")], embeddedName := none, docText := ("") }] }),
              (((("p")), (("B"))), { docText := ("B doc"), spec := .otherSpec }) ] }

/-- `struct { NoTag int }` — an exported member with no `json` annotation. -/
def noTagT : GoType :=
  { name := ("S"), pkgPath := ("p"), str := ("p.S"),
    shape := .strukt [{ name := ("NoTag"), tag := (""), exported := true, typ := 1 }] }

def envNoTag : TypeEnv := [noTagT, intT]

/-- `struct { A int \x60json:"x"\x60; B int \x60json:"x"\x60 }` — two members
with the same output name (legal Go). -/
def dupTagT : GoType :=
  { name := ("D"), pkgPath := ("p"), str := ("p.D"),
    shape := .strukt [{ name := ("A"), tag := ("x"), exported := true, typ := 1 },
                      { name := ("B"), tag := ("x"), exported := true, typ := 1 }] }

def envDup : TypeEnv := [dupTagT, intT]

def mkProp (path : String) : PropertyDoc :=
  { Path := path, TypeInfo := { Name := (""), Kind := (""), Package := ("") },
    TypeDoc := (""), FieldDoc := (""), DeprecatedDoc := (""), ChildrenPaths := [] }

/-- A document whose root structure contains a member `secret` with a nested
member below it. -/
def secretDoc : ObjectDoc :=
  { Name := (""), Doc := (""),
    Properties := [mkProp ("$"), mkProp ("$.secret"), mkProp ("$.secret.inner")] }

/-- A property whose type doc and field doc each carry a `Deprecated:` marker. -/
def bothDeprProp : PropertyDoc :=
  { Path := ("$"), TypeInfo := { Name := (""), Kind := (""), Package := ("") },
    TypeDoc := ("Type doc.") ++ (String.mk ['\n']) ++ ("Deprecated: use A."),
    FieldDoc := ("Deprecated: use B."), DeprecatedDoc := (""), ChildrenPaths := [] }

def bothDeprDoc : ObjectDoc :=
  { Name := (""), Doc := (""), Properties := [bothDeprProp] }

/-- A document with a single deprecation marker (in the type doc only):
one post-processing pass leaves it marker-free. -/
def oneDeprProp : PropertyDoc :=
  { Path := ("$"), TypeInfo := { Name := (""), Kind := (""), Package := ("") },
    TypeDoc := ("Foo does X.") ++ (String.mk ['\n', '\n']) ++ ("Deprecated: use Bar instead."),
    FieldDoc := ("plain field doc"), DeprecatedDoc := (""), ChildrenPaths := [] }

def oneDeprDoc : ObjectDoc :=
  { Name := (""), Doc := (""), Properties := [oneDeprProp] }

/-- `type S struct { A int \x60json:"a"\x60; B string \x60json:"b"\x60 }`
(index 0) over `int` (index 1) and `string` (index 2). -/
def sPlainT : GoType :=
  { name := ("S"), pkgPath := ("p"), str := ("p.S"),
    shape := .strukt [{ name := ("A"), tag := ("a"), exported := true, typ := 1 },
                      { name := ("B"), tag := ("b"), exported := true, typ := 2 }] }

def envPlain : TypeEnv := [sPlainT, intT, strT]

/-- `[]int` (index 0), `int` (index 1), `[]mypkg.Bar` (index 2),
`type Bar string` in package `mypkg` (index 3). -/
def sliceIntT : GoType :=
  { name := (""), pkgPath := (""), str := ("[]int"), shape := .slice 1 }

def namedBarT : GoType :=
  { name := ("Bar"), pkgPath := ("mypkg"), str := ("mypkg.Bar"), shape := .scalar ("string") }

def sliceBarT : GoType :=
  { name := (""), pkgPath := (""), str := ("[]mypkg.Bar"), shape := .slice 3 }

def envTI : TypeEnv := [sliceIntT, intT, sliceBarT, namedBarT]

/-! ## Basic lemmas about the string model -/

theorem strMk_data (l : List Char) : (String.mk l).data = l := rfl

theorem strAppend_data (a b : String) : (a ++ b).data = a.data ++ b.data :=
  String.data_append a b

theorem strAppend_assoc (a b c : String) : a ++ b ++ c = a ++ (b ++ c) := by
  apply String.ext
  simp [strAppend_data, List.append_assoc]

theorem strAppend_right_empty (a : String) : a ++ ("") = a := by
  apply String.ext
  simp [strAppend_data]

theorem strAppend_cancel_left {p a b : String} (h : p ++ a = p ++ b) : a = b := by
  apply String.ext
  have h2 := congrArg String.data h
  simp only [strAppend_data] at h2
  exact List.append_cancel_left h2

theorem cutPrefix_append (pre x : String) : cutPrefix (pre ++ x) pre = some x := by
  unfold cutPrefix
  rw [strAppend_data]
  rw [if_pos]
  · congr 1
    apply String.ext
    simp
  · exact List.isPrefixOf_iff_prefix.mpr (List.prefix_append _ _)

theorem listContains_append (a b : List Char) (c : Char) :
    (a ++ b).contains c = (a.contains c || b.contains c) := by
  induction a with
  | nil => simp
  | cons x xs ih =>
    simp only [List.cons_append, List.contains_cons, ih, Bool.or_assoc]

theorem containsChar_append (a b : String) (c : Char) :
    containsChar (a ++ b) c = (containsChar a c || containsChar b c) := by
  simp [containsChar, strAppend_data, listContains_append]

/-! ## C10: placement of sequence-element and mapping child paths -/

theorem mem_findPropertyChildrenPaths_inv {y parent : String} {props : List PropertyDoc}
    (h : y ∈ findPropertyChildrenPaths parent props) :
    ∃ rel, y = parent ++ (".") ++ rel ∧ containsChar rel '.' = false := by
  unfold findPropertyChildrenPaths at h
  obtain ⟨pd, _, hpd⟩ := List.mem_filterMap.mp h
  split at hpd
  · exact absurd hpd (by simp)
  · split at hpd
    · exact absurd hpd (by simp)
    · next rel _ hdot =>
      simp only [Option.some_inj] at hpd
      exact ⟨rel, hpd.symm, by simpa using hdot⟩

theorem mem_findPropertyChildrenPaths_of {parent rel : String} {props : List PropertyDoc}
    (pd : PropertyDoc) (hmem : pd ∈ props) (hpath : pd.Path = parent ++ (".") ++ rel)
    (hdot : containsChar rel '.' = false) :
    (parent ++ (".") ++ rel) ∈ findPropertyChildrenPaths parent props := by
  unfold findPropertyChildrenPaths
  apply List.mem_filterMap.mpr
  refine ⟨pd, hmem, ?_⟩
  rw [hpath, cutPrefix_append]
  simp [hdot]

/-- C10: `findPropertyChildrenPaths` joins paths only with `"."`, so for a
sequence node at path `p` the element node `p ++ "[*]"` is never one of `p`'s
own children; when `p = r ++ "." ++ last` (with `last` dot-free, i.e. `r` is
the longest proper dot-separated prefix of `p`), the element node is instead a
child of the node at `r`; the mapping key (`.~`) and value (`.*`) nodes are
children of the mapping node itself. -/
theorem c10_thm (props : List PropertyDoc) (p r last : String)
    (hdot : containsChar last '.' = false) :
    ((p ++ ("[*]")) ∉ findPropertyChildrenPaths p props) ∧
    ((∃ pd ∈ props, pd.Path = r ++ (".") ++ last ++ ("[*]")) →
      (r ++ (".") ++ last ++ ("[*]")) ∈ findPropertyChildrenPaths r props) ∧
    ((∃ pd ∈ props, pd.Path = p ++ (".~")) →
      (p ++ (".~")) ∈ findPropertyChildrenPaths p props) ∧
    ((∃ pd ∈ props, pd.Path = p ++ (".*")) →
      (p ++ (".*")) ∈ findPropertyChildrenPaths p props) := by
  refine ⟨?_, ?_, ?_, ?_⟩
  · intro hmem
    obtain ⟨rel, heq, -⟩ := mem_findPropertyChildrenPaths_inv hmem
    rw [strAppend_assoc] at heq
    have h2 : ("[*]") = (".") ++ rel := strAppend_cancel_left heq
    have h3 := congrArg String.data h2
    simp [strAppend_data] at h3
  · rintro ⟨pd, hmem, hpath⟩
    have h : (r ++ (".") ++ last ++ ("[*]")) = r ++ (".") ++ (last ++ ("[*]")) :=
      strAppend_assoc _ _ _
    rw [h]
    apply mem_findPropertyChildrenPaths_of pd hmem (by rw [hpath, h])
    rw [containsChar_append, hdot]
    decide
  · rintro ⟨pd, hmem, hpath⟩
    have h : (p ++ (".~")) = p ++ (".") ++ ("~") := by
      rw [strAppend_assoc]; rfl
    rw [h]
    apply mem_findPropertyChildrenPaths_of pd hmem (by rw [hpath, h])
    decide
  · rintro ⟨pd, hmem, hpath⟩
    have h : (p ++ (".*")) = p ++ (".") ++ ("*") := by
      rw [strAppend_assoc]; rfl
    rw [h]
    apply mem_findPropertyChildrenPaths_of pd hmem (by rw [hpath, h])
    decide

/-- Witness for `c10_thm` at a concrete document: a sequence member
`items` of the root, its element node, and a mapping node `data`. -/
theorem c10_witness :
    (containsChar ("items") '.' = false) ∧
    ((("$.items") ++ ("[*]")) ∉ findPropertyChildrenPaths ("$.items")
        [mkProp ("$"), mkProp ("$.items"), mkProp ("$.items[*]")]) ∧
    ((("$") ++ (".") ++ ("items") ++ ("[*]")) ∈ findPropertyChildrenPaths ("$")
        [mkProp ("$"), mkProp ("$.items"), mkProp ("$.items[*]")]) := by
  have h := c10_thm [mkProp ("$"), mkProp ("$.items"), mkProp ("$.items[*]")]
    ("$.items") ("$") ("items") (by decide)
  exact ⟨by decide, h.1, h.2.1 ⟨mkProp ("$.items[*]"), by decide, by decide⟩⟩

/-! ## C8: a bare builtin root fails with `NoDocumentation`, never a partial map -/

/-- C8: for a root type that is a bare built-in (empty package path and not a
pointer/slice wrapper), `Parse` fails with the no-documentation error; and for
every input, whenever `Parse` reports an error its returned map is `nil` —
never a partially-filled map alongside an error. -/
theorem c8_thm (env : TypeEnv) (st : Store) (render : String → String → String)
    (fuel : Nat) (tid : Nat) (t : GoType)
    (ht : envGet env tid = some t) (hpkg : t.pkgPath = (""))
    (hptr : ∀ e, t.shape ≠ .ptr e) (hslice : ∀ e, t.shape ≠ .slice e) :
    ParseGo env st render (fuel + 1) tid = some (none, some (.noDocumentation tid)) ∧
    (∀ env' st' render' fuel' tid' r, ParseGo env' st' render' fuel' tid' = some r →
      r.2.isSome = true → r.1 = none) := by
  constructor
  · have hp : parse env st render (fuel + 1) tid [] [] =
        some (.ok (.mk t.name t.pkgPath ("") [], [], [])) := by
      rcases hsh : t.shape with e | e | ⟨k, v⟩ | fs | k
      · exact absurd hsh (hptr e)
      · exact absurd hsh (hslice e)
      all_goals simp [parse, hsh, ht, hpkg, unwrapPtrSlice]
    unfold ParseGo
    rw [hp]
    simp
  · intro env' st' render' fuel' tid' r hr hsome
    unfold ParseGo at hr
    split at hr
    · exact absurd hr (by simp)
    · simp only [Option.some_inj] at hr
      rw [← hr]
    · split at hr
      all_goals simp only [Option.some_inj] at hr
      all_goals rw [← hr] at hsome ⊢
      all_goals simp_all

/-- Witness for `c8_thm`: correlating the bare builtin `int` root. -/
theorem c8_witness :
    ParseGo [intT] { pkgs := [], decls := [] } renderId 1 0 =
      some (none, some (.noDocumentation 0)) :=
  (c8_thm [intT] { pkgs := [], decls := [] } renderId 0 0 intT rfl rfl
    (fun _ h => TypeShape.noConfusion h) (fun _ h => TypeShape.noConfusion h)).1

/-! ## C9: the type-descriptor extractor -/

/-- C9 (amended): the sequence-namespace asymmetry holds — an unnamed slice
of a builtin element reports an empty namespace and the element's
`String()` behind the `[]` marker, while an unnamed slice of a named element
promotes that element's namespace and name; and a nil type yields the
zero-value descriptor.  (Totality, however, requires the element's kind
computation to terminate — see `c9_counterexample`.) -/
theorem c9_thm (env : TypeEnv) (fuel : Nat) (tid e : Nat) (t te : GoType) (ek : String)
    (ht : envGet env tid = some t) (hs : t.shape = .slice e) (hpkg : t.pkgPath = (""))
    (hte : envGet env e = some te) (hek : getKindString env fuel e = some ek) :
    typeinfoGet env (fuel + 1) none = some { Name := (""), Kind := (""), Package := ("") } ∧
    (te.pkgPath = ("") →
      typeinfoGet env (fuel + 1) (some tid) =
        some { Name := ("[]") ++ te.str, Kind := ("[]") ++ ek, Package := ("") }) ∧
    (te.pkgPath ≠ ("") →
      typeinfoGet env (fuel + 1) (some tid) =
        some { Name := ("[]") ++ te.name, Kind := ("[]") ++ ek, Package := te.pkgPath }) := by
  have hk : getKindString env (fuel + 1) tid = some (("[]") ++ ek) := by
    simp [getKindString, ht, hs, hek]
  refine ⟨rfl, ?_, ?_⟩ <;> intro hte2 <;>
    simp [typeinfoGet, ht, hs, hk, hpkg, hte, hte2, unwrapPtr]

/-- C9 counterexample: for the legal Go type `type T []T` the extractor's kind
computation recurses forever — `Get` does not "always return a value". -/
theorem c9_aux_selfSlice_kind (fuel : Nat) : getKindString envTT fuel 0 = none := by
  induction fuel with
  | zero => rfl
  | succ n ih =>
    have h0 : envGet envTT 0 = some selfSliceT := rfl
    simp [getKindString, h0, selfSliceT, ih]

theorem c9_counterexample : ¬ ∃ fuel, (typeinfoGet envTT fuel (some 0)).isSome = true := by
  rintro ⟨fuel, hf⟩
  have h : typeinfoGet envTT fuel (some 0) = none := by
    have h0 : envGet envTT 0 = some selfSliceT := rfl
    simp [typeinfoGet, h0, selfSliceT, c9_aux_selfSlice_kind fuel, unwrapPtr]
  rw [h] at hf
  exact absurd hf (by simp)

/-- Witness for `c9_thm`: `[]int` keeps the empty namespace, `[]mypkg.Bar`
promotes `mypkg` and reports name `[]Bar`. -/
theorem c9_witness :
    typeinfoGet envTI 2 (some 0) =
      some { Name := ("[]int"), Kind := ("[]int"), Package := ("") } ∧
    typeinfoGet envTI 2 (some 2) =
      some { Name := ("[]Bar"), Kind := ("[]string"), Package := ("mypkg") } := by
  have h1 := c9_thm envTI 1 0 1 sliceIntT intT ("int") rfl rfl rfl rfl rfl
  have h2 := c9_thm envTI 1 2 3 sliceBarT namedBarT ("string") rfl rfl rfl rfl rfl
  exact ⟨h1.2.1 rfl, h2.2.2 (by decide)⟩

/-! ## C1: the recursions have no cycle guard -/

theorem c1_aux_map_diverges (fuel : Nat) :
    ∀ path, mapGo envNode fuel 1 path = none := by
  have h1 : envGet envNode 1 = some ptrNodeT := rfl
  have h0 : envGet envNode 0 = some nodeT := rfl
  induction fuel with
  | zero => intro path; rfl
  | succ n ih =>
    intro path
    simp [mapGo, h1, h0, ptrNodeT, nodeT, typeinfoGet, getKindString, walkFields, ih,
      unwrapPtr]
    decide

theorem c1_aux_map_diverges_root (fuel : Nat) : mapGo envNode fuel 0 ("$") = none := by
  have h0 : envGet envNode 0 = some nodeT := rfl
  match fuel with
  | 0 => rfl
  | n + 1 =>
    simp [mapGo, h0, nodeT, typeinfoGet, getKindString, walkFields, c1_aux_map_diverges n,
      unwrapPtr]
    decide

theorem c1_aux_parse_diverges (fuel : Nat) :
    ∀ docs log, parse envNode storeNode renderId fuel 1 docs log = none := by
  have h1 : envGet envNode 1 = some ptrNodeT := rfl
  have h0 : envGet envNode 0 = some nodeT := rfl
  have hpk : storeNode.pkgs.contains ("p") = true := rfl
  have hpk2 : ("p") ∈ storeNode.pkgs := by decide
  have hd : declLookup storeNode ("p") ("Node") =
      some { docText := ("Node doc"),
             spec := .structSpec [{ names := [("Next")], embeddedName := none,
                                    docText := ("") }] } := rfl
  induction fuel with
  | zero => intro docs log; rfl
  | succ n ih =>
    intro docs log
    simp [parse, h1, h0, ptrNodeT, nodeT, hpk, hpk2, hd, parseFieldsAux, ih, unwrapPtrSlice]

theorem c1_aux_parse_diverges_root (fuel : Nat) :
    parse envNode storeNode renderId fuel 0 [] [] = none := by
  have h0 : envGet envNode 0 = some nodeT := rfl
  have hpk : storeNode.pkgs.contains ("p") = true := rfl
  have hpk2 : ("p") ∈ storeNode.pkgs := by decide
  have hd : declLookup storeNode ("p") ("Node") =
      some { docText := ("Node doc"),
             spec := .structSpec [{ names := [("Next")], embeddedName := none,
                                    docText := ("") }] } := rfl
  match fuel with
  | 0 => rfl
  | n + 1 =>
    simp [parse, h0, nodeT, hpk, hpk2, hd, parseFieldsAux, c1_aux_parse_diverges n,
      unwrapPtrSlice]

/-- C1 counterexample: for the legal Go type
`type Node struct { Next *Node \x60json:"next"\x60 }` neither the structural
walk starting at `"$"` nor the documentation correlation terminates — no
finite recursion budget completes either. -/
theorem c1_counterexample :
    (¬ ∃ fuel, (mapGo envNode fuel 0 ("$")).isSome = true) ∧
    (¬ ∃ fuel, (parse envNode storeNode renderId fuel 0 [] []).isSome = true) := by
  constructor
  · rintro ⟨fuel, hf⟩
    rw [c1_aux_map_diverges_root fuel] at hf
    exact absurd hf (by simp)
  · rintro ⟨fuel, hf⟩
    rw [c1_aux_parse_diverges_root fuel] at hf
    exact absurd hf (by simp)

/-! ## C2 counterexample: entries are re-derived, not reused -/

/-- C2 counterexample: correlating
`type A struct { X B \x60json:"x"\x60; Y B \x60json:"y"\x60 }` derives the
entry for `p.B` twice — the derivation log registers the same qualified name
once per reference, so the entry is not computed at most once. -/
theorem c2_counterexample :
    logPart (parse envTwice storeTwice renderId 3 0 [] []) =
      [("p.B"), ("p.B"), ("p.A")] ∧
    ¬ (logPart (parse envTwice storeTwice renderId 3 0 [] [])).Nodup := by
  constructor
  · rfl
  · decide

/-! ## C3 counterexample: suppressed members are recursed into -/

/-- C3 counterexample: correlating `type A struct { X B \x60json:"-"\x60 }`
(member suppressed by the `-` annotation) still recurses into `B` — the
result map contains the entry for `p.B`, which is reachable only through the
suppressed member, while `A`'s member map is empty. -/
theorem c3_counterexample :
    ParseGo envSupp storeSupp renderId 3 0 =
      some (some [(("p.B"), .mk ("B") ("p") ("B doc") []),
                  (("p.A"), .mk ("A") ("p") ("A doc") [])], none) := rfl

/-! ## C4 counterexample: annotation-less members are skipped by the walker -/

/-- C4 counterexample: walking `type S struct { NoTag int }` (exported member,
no `json` annotation) emits only the root node — no node at `"$.NoTag"` (or
anywhere else) is produced for the member. -/
theorem c4_counterexample :
    (mapGo envNoTag 3 0 ("$")).map pathsOf = some [("$")] ∧ ("$.NoTag") ≠ ("$") := by
  exact ⟨rfl, by decide⟩

/-! ## C5 counterexample: exclusion removes only exact path matches -/

/-- C5 counterexample: post-processing with exclusion list `["$.secret"]`
removes the node at `"$.secret"` but keeps its descendant `"$.secret.inner"`,
a path starting with `"$.secret."`. -/
theorem c5_counterexample :
    pathsOf (postProcessProperties [("$.secret")] secretDoc generateFormatters).Properties =
      [("$"), ("$.secret.inner")] ∧
    ("$.secret.inner") = ("$.secret.") ++ ("inner") := by
  exact ⟨rfl, rfl⟩

/-! ## C6 counterexample: post-processing is not idempotent -/

/-- C6 counterexample: for a property whose type doc and field doc each carry
a `Deprecated:` marker, the second post-processing pass extracts the field-doc
marker (the first pass consumed only the type-doc one), so running the
pipeline twice differs from running it once. -/
theorem c6_counterexample :
    postProcessProperties [] (postProcessProperties [] bothDeprDoc generateFormatters)
        generateFormatters ≠
      postProcessProperties [] bothDeprDoc generateFormatters := by
  decide

/-! ## C7 counterexample: duplicate output names give duplicate paths -/

/-- C7 counterexample: the generated document for
`type D struct { A int \x60json:"x"\x60; B int \x60json:"x"\x60 }` (legal Go)
contains the path `"$.x"` twice — paths are not pairwise distinct. -/
theorem c7_counterexample :
    (generateObjectDocF envDup 3 0).map (fun d => pathsOf d.Properties) =
      some [("$"), ("$.x"), ("$.x")] ∧
    ¬ ([("$"), ("$.x"), ("$.x")] : List String).Nodup := by
  exact ⟨rfl, by decide⟩

/-! ## C5 amended: exclusion removes exactly the exact-match paths -/

theorem extractDepr_path (q : PropertyDoc) : (extractDeprecatedInformation q).Path = q.Path := by
  unfold extractDeprecatedInformation
  split_ifs <;> rfl

theorem applyGenFmts_path (q : PropertyDoc) :
    (applyFormatters generateFormatters q).Path = q.Path := by
  show (removeTrailingWhitespace (extractDeprecatedInformation (removeEnumDeclaration q))).Path = _
  show (extractDeprecatedInformation (removeEnumDeclaration q)).Path = _
  rw [extractDepr_path]
  rfl

theorem ppAux_mem_not_filtered {filter : List String} {l : List PropertyDoc} {p : PropertyDoc}
    (hmem : p ∈ ppAux filter generateFormatters l) : (filter.contains p.Path) = false := by
  induction l with
  | nil => exact absurd hmem (by simp [ppAux])
  | cons q l ih =>
    unfold ppAux at hmem
    split at hmem
    · exact ih hmem
    · next hq =>
      rcases List.mem_cons.mp hmem with h | h
      · rw [h, applyGenFmts_path]
        exact Bool.not_eq_true _ ▸ hq
      · exact ih h

/-- C5 (amended): post-processing removes exactly the exact-match paths — no
surviving property's path is contained in the exclusion list (and, per
`c5_counterexample`, descendants of an excluded path do survive). -/
theorem c5_thm (filter : List String) (doc : ObjectDoc) (p : PropertyDoc)
    (hmem : p ∈ (postProcessProperties filter doc generateFormatters).Properties) :
    (filter.contains p.Path) = false :=
  ppAux_mem_not_filtered hmem

/-- Witness for `c5_thm`: the root node survives post-processing with
exclusion list `["$.secret"]` and its path is not excluded. -/
theorem c5_witness :
    (([("$.secret")] : List String).contains (mkProp ("$")).Path) = false :=
  c5_thm [("$.secret")] secretDoc (mkProp ("$")) (by decide)

/-! ## C3 amended: suppressed members never appear in the member map -/

theorem assocInsert_mem {α : Type} {m : List (String × α)} {k key : String} {v val : α}
    (h : (k, v) ∈ assocInsert m key val) : (k, v) ∈ m ∨ k = key := by
  induction m with
  | nil =>
    simp only [assocInsert, List.mem_singleton] at h
    exact Or.inr (congrArg Prod.fst h)
  | cons kv m ih =>
    unfold assocInsert at h
    split at h
    · rcases List.mem_cons.mp h with h' | h'
      · exact Or.inr (congrArg Prod.fst h')
      · exact Or.inl (List.mem_cons_of_mem _ h')
    · rcases List.mem_cons.mp h with h' | h'
      · exact Or.inl (h' ▸ List.mem_cons_self _ _)
      · rcases ih h' with h'' | h''
        · exact Or.inl (List.mem_cons_of_mem _ h'')
        · exact Or.inr h''

theorem parseFieldsAux_keys
    (pf : Nat → Docs → List String → Option (Except ParseErr (Doc × Docs × List String)))
    (render : String → String → String) (sName pkg : String) (astMap : List (String × String)) :
    ∀ (fields : List StructField) (sf : List (String × Doc)) (docs : Docs) (log : List String)
      (sf' : List (String × Doc)) (docs' : Docs) (log' : List String),
      parseFieldsAux pf render sName pkg astMap fields sf docs log =
        some (.ok (sf', docs', log')) →
      ∀ k v, (k, v) ∈ sf' →
        (∃ w, (k, w) ∈ sf) ∨ (k ≠ ("") ∧ ∃ f ∈ fields, getStructFieldName f = k) := by
  intro fields
  induction fields with
  | nil =>
    intro sf docs log sf' docs' log' hp k v hmem
    unfold parseFieldsAux at hp
    simp only [Option.some_inj, Except.ok.injEq, Prod.mk.injEq] at hp
    exact Or.inl ⟨v, hp.1 ▸ hmem⟩
  | cons f fs ih =>
    intro sf docs log sf' docs' log' hp k v hmem
    unfold parseFieldsAux at hp
    split at hp
    · exact absurd hp (by simp)
    · exact absurd hp (by simp)
    · next fieldDoc docs1 log1 heq =>
      split at hp
      · next hsupp =>
        rcases ih _ _ _ _ _ _ hp k v hmem with h | ⟨hk, f', hf', hn⟩
        · exact Or.inl h
        · exact Or.inr ⟨hk, f', List.mem_cons_of_mem _ hf', hn⟩
      · next hsupp =>
        rcases ih _ _ _ _ _ _ hp k v hmem with h | ⟨hk, f', hf', hn⟩
        · obtain ⟨w, hw⟩ := h
          rcases assocInsert_mem hw with h' | h'
          · exact Or.inl ⟨w, h'⟩
          · exact Or.inr ⟨h' ▸ hsupp, f, List.mem_cons_self _ _, h'.symm⟩
        · exact Or.inr ⟨hk, f', List.mem_cons_of_mem _ hf', hn⟩

/-- C3 (amended): a member with a suppressed output name never contributes an
entry to the struct's member-documentation map — every key of `StructFields`
is the non-empty output name of one of the struct's members.  (The member's
type is still recursed into and its entries added to the result map — see
`c3_counterexample`.) -/
theorem c3_thm (env : TypeEnv) (st : Store) (render : String → String → String)
    (fuel tid : Nat) (docs : Docs) (log : List String)
    (t : GoType) (fields : List StructField) (d : Doc) (docs' : Docs) (log' : List String)
    (ht : envGet env tid = some t) (hs : t.shape = .strukt fields)
    (hp : parse env st render fuel tid docs log = some (.ok (d, docs', log'))) :
    ∀ k v, (k, v) ∈ d.StructFields → k ≠ ("") ∧ ∃ f ∈ fields, getStructFieldName f = k := by
  intro k v hmem
  match fuel with
  | 0 => exact absurd hp (by simp [parse])
  | fuel + 1 =>
    simp only [parse, ht, hs, unwrapPtrSlice] at hp
    split at hp
    · simp only [Option.some_inj, Except.ok.injEq, Prod.mk.injEq] at hp
      rw [← hp.1] at hmem
      exact absurd hmem (by simp [Doc.StructFields])
    · split at hp
      · exact absurd hp (by simp)
      · split at hp
        · exact absurd hp (by simp)
        · split at hp
          · exact absurd hp (by simp)
          · split at hp
            · exact absurd hp (by simp)
            · exact absurd hp (by simp)
            · next sf docs1 log1 heq =>
              simp only [registerDoc, Option.some_inj, Except.ok.injEq, Prod.mk.injEq] at hp
              rw [← hp.1] at hmem
              have hmem' : (k, v) ∈ sf := hmem
              rcases parseFieldsAux_keys _ render t.name t.pkgPath _ fields [] docs log
                  sf docs1 log1 heq k v hmem' with h | h
              · obtain ⟨w, hw⟩ := h
                exact absurd hw (by simp)
              · exact ⟨h.1, h.2⟩

/-- Witness for `c3_thm`: in the correlation of
`type A struct { X B \x60json:"x"\x60; Y B \x60json:"y"\x60 }`, the member map
key `"x"` is the output name of a member of `A`. -/
theorem c3_witness :
    ("x") ≠ ("") ∧
    ∃ f ∈ [{ name := ("X"), tag := ("x"), exported := true, typ := 1 },
           { name := ("Y"), tag := ("y"), exported := true, typ := 1 }],
      getStructFieldName f = ("x") := by
  have h := c3_thm envTwice storeTwice renderId 3 0 [] [] aTwiceT
    [{ name := ("X"), tag := ("x"), exported := true, typ := 1 },
     { name := ("Y"), tag := ("y"), exported := true, typ := 1 }]
    (.mk ("A") ("p") ("A doc")
      [(("x"), .mk ("B") ("p") ("") []), (("y"), .mk ("B") ("p") ("") [])])
    [(("p.B"), .mk ("B") ("p") ("B doc") []),
     (("p.A"), .mk ("A") ("p") ("A doc")
        [(("x"), .mk ("B") ("p") ("") []), (("y"), .mk ("B") ("p") ("") [])])]
    [("p.B"), ("p.B"), ("p.A")] rfl rfl rfl
  exact h ("x") (.mk ("B") ("p") ("") []) (by simp [Doc.StructFields])

/-! ## C2 amended: re-derivations are state-independent -/

theorem docPart_cases {r1 r2 : Option (Except ParseErr (Doc × Docs × List String))}
    (h : docPart r1 = docPart r2) :
    (r1 = none ∧ r2 = none) ∨
    (∃ e, r1 = some (.error e) ∧ r2 = some (.error e)) ∨
    (∃ d da la db lb, r1 = some (.ok (d, da, la)) ∧ r2 = some (.ok (d, db, lb))) := by
  rcases r1 with _ | r1 <;> rcases r2 with _ | r2
  · exact Or.inl ⟨rfl, rfl⟩
  · rcases r2 with e | ⟨d, db, lb⟩ <;> simp [docPart] at h
  · rcases r1 with e | ⟨d, da, la⟩ <;> simp [docPart] at h
  · rcases r1 with e | ⟨d, da, la⟩ <;> rcases r2 with e' | ⟨d', db, lb⟩ <;>
      simp only [docPart, Option.some_inj, Except.error.injEq, Except.ok.injEq] at h
    · exact Or.inr (Or.inl ⟨e, rfl, h ▸ rfl⟩)
    · exact absurd h (by simp)
    · exact absurd h (by simp)
    · exact Or.inr (Or.inr ⟨d, da, la, db, lb, rfl, h ▸ rfl⟩)

theorem sfPart_cases
    {r1 r2 : Option (Except ParseErr (List (String × Doc) × Docs × List String))}
    (h : sfPart r1 = sfPart r2) :
    (r1 = none ∧ r2 = none) ∨
    (∃ e, r1 = some (.error e) ∧ r2 = some (.error e)) ∨
    (∃ sf da la db lb, r1 = some (.ok (sf, da, la)) ∧ r2 = some (.ok (sf, db, lb))) := by
  rcases r1 with _ | r1 <;> rcases r2 with _ | r2
  · exact Or.inl ⟨rfl, rfl⟩
  · rcases r2 with e | ⟨sf, db, lb⟩ <;> simp [sfPart] at h
  · rcases r1 with e | ⟨sf, da, la⟩ <;> simp [sfPart] at h
  · rcases r1 with e | ⟨sf, da, la⟩ <;> rcases r2 with e' | ⟨sf', db, lb⟩ <;>
      simp only [sfPart, Option.some_inj, Except.error.injEq, Except.ok.injEq] at h
    · exact Or.inr (Or.inl ⟨e, rfl, h ▸ rfl⟩)
    · exact absurd h (by simp)
    · exact absurd h (by simp)
    · exact Or.inr (Or.inr ⟨sf, da, la, db, lb, rfl, h ▸ rfl⟩)

theorem parseFieldsAux_cons_ok
    (pf : Nat → Docs → List String → Option (Except ParseErr (Doc × Docs × List String)))
    (render : String → String → String) (sName pkg : String) (astMap : List (String × String))
    (f : StructField) (fs : List StructField) (sf : List (String × Doc))
    (docs : Docs) (log : List String) (d : Doc) (docs' : Docs) (log' : List String)
    (h : pf f.typ docs log = some (.ok (d, docs', log'))) :
    parseFieldsAux pf render sName pkg astMap (f :: fs) sf docs log =
      if getStructFieldName f = ("") then
        parseFieldsAux pf render sName pkg astMap fs sf docs' log'
      else
        parseFieldsAux pf render sName pkg astMap fs
          (assocInsert sf (getStructFieldName f)
            (match assocLookup astMap f.name with
             | some astDocText => d.withDocText (docCommentToMarkdown render pkg astDocText)
             | none => d)) docs' log' := by
  conv_lhs => rw [parseFieldsAux, h]

theorem parseFieldsAux_sfPart
    (pf pf' : Nat → Docs → List String → Option (Except ParseErr (Doc × Docs × List String)))
    (render : String → String → String) (sName pkg : String) (astMap : List (String × String))
    (hpf : ∀ i d1 l1 d2 l2, docPart (pf i d1 l1) = docPart (pf' i d2 l2)) :
    ∀ (fields : List StructField) (sf : List (String × Doc))
      (docs1 : Docs) (log1 : List String) (docs2 : Docs) (log2 : List String),
      sfPart (parseFieldsAux pf render sName pkg astMap fields sf docs1 log1) =
      sfPart (parseFieldsAux pf' render sName pkg astMap fields sf docs2 log2) := by
  intro fields
  induction fields with
  | nil => intro sf docs1 log1 docs2 log2; rfl
  | cons f fs ih =>
    intro sf docs1 log1 docs2 log2
    have h := hpf f.typ docs1 log1 docs2 log2
    rcases docPart_cases h with ⟨ha, hb⟩ | ⟨e, ha, hb⟩ | ⟨d, da, la, db, lb, ha, hb⟩
    · unfold parseFieldsAux
      rw [ha, hb]
    · unfold parseFieldsAux
      rw [ha, hb]
    · rw [parseFieldsAux_cons_ok pf render sName pkg astMap f fs sf docs1 log1 d da la ha,
        parseFieldsAux_cons_ok pf' render sName pkg astMap f fs sf docs2 log2 d db lb hb]
      by_cases hn : getStructFieldName f = ("")
      · simp only [if_pos hn]
        exact ih _ _ _ _ _
      · simp only [if_neg hn]
        exact ih _ _ _ _ _

/-- C2 (amended): the documentation entry `parse` derives for a type does not
depend on the accumulated docs map or log at all — re-deriving an entry on a
later reference (which is what the code does, see `c2_counterexample`)
computes the identical `Doc`, so the final map is as if each entry had been
computed once and reused. -/
theorem c2_thm (env : TypeEnv) (st : Store) (render : String → String → String) :
    ∀ (fuel tid : Nat) (docs1 : Docs) (log1 : List String) (docs2 : Docs) (log2 : List String),
      docPart (parse env st render fuel tid docs1 log1) =
      docPart (parse env st render fuel tid docs2 log2) := by
  intro fuel
  induction fuel with
  | zero => intro tid docs1 log1 docs2 log2; rfl
  | succ n ih =>
    intro tid docs1 log1 docs2 log2
    cases h0 : envGet env tid with
    | none => simp only [parse, h0]
    | some t0 =>
      cases h1 : envGet env (unwrapPtrSlice tid t0.shape) with
      | none => simp only [parse, h0, h1]
      | some t =>
        by_cases hpkg : t.pkgPath = ("")
        · simp only [parse, h0, h1, hpkg, if_pos rfl, if_true, docPart]
        · by_cases hcont : st.pkgs.contains t.pkgPath
          · have hcont2 : t.pkgPath ∈ st.pkgs := by simpa using hcont
            cases hd : declLookup st t.pkgPath t.name with
            | none => simp [parse, h0, h1, hpkg, hcont, hcont2, hd]
            | some decl =>
              cases hsh : t.shape with
              | strukt fields =>
                cases hspec : decl.spec with
                | otherSpec =>
                  simp [parse, h0, h1, hpkg, hcont, hcont2, hd, hsh, hspec]
                | structSpec astFields =>
                  have haux := parseFieldsAux_sfPart
                    (fun i d l => parse env st render n i d l)
                    (fun i d l => parse env st render n i d l)
                    render t.name t.pkgPath (buildASTFieldMap astFields)
                    (fun i d1 l1 d2 l2 => ih i d1 l1 d2 l2)
                    fields [] docs1 log1 docs2 log2
                  simp only [parse, h0, h1, if_neg hpkg, hcont, hcont2, Bool.not_true, hd,
                    hsh, hspec, if_true, if_pos]
                  rcases sfPart_cases haux with ⟨ha, hb⟩ | ⟨e, ha, hb⟩ |
                      ⟨sf, da, la, db, lb, ha, hb⟩ <;>
                    (rw [ha, hb]; try simp [docPart, registerDoc])
              | ptr e =>
                simp [parse, h0, h1, hpkg, hcont, hcont2, hd, hsh, registerDoc, docPart]
              | slice e =>
                simp [parse, h0, h1, hpkg, hcont, hcont2, hd, hsh, registerDoc, docPart]
              | mapping k v =>
                simp [parse, h0, h1, hpkg, hcont, hcont2, hd, hsh, registerDoc, docPart]
              | scalar k =>
                simp [parse, h0, h1, hpkg, hcont, hcont2, hd, hsh, registerDoc, docPart]
          · simp only [parse, h0, h1, if_neg hpkg, Bool.not_eq_true] at hcont ⊢
            rw [hcont]
            simp only [Bool.not_false, if_pos rfl, if_true]

/-! ## C6 amended: idempotence on marker-free results -/

theorem dropWhile_idem (p : Char → Bool) (l : List Char) :
    (l.dropWhile p).dropWhile p = l.dropWhile p := by
  induction l with
  | nil => rfl
  | cons c t ih =>
    by_cases h : p c
    · simp [List.dropWhile_cons, h, ih]
    · simp [List.dropWhile_cons, h]

theorem dropWhile_head_false {p : Char → Bool} {l : List Char} {c : Char} {t : List Char}
    (h : l.dropWhile p = c :: t) : p c = false := by
  induction l with
  | nil => exact absurd h (by simp)
  | cons a l ih =>
    by_cases ha : p a
    · rw [List.dropWhile_cons, if_pos ha] at h
      exact ih h
    · rw [List.dropWhile_cons, if_neg ha] at h
      rw [← (List.cons.injEq a l c t).mp h |>.1]
      exact Bool.not_eq_true _ ▸ ha

theorem trimRightL_prefix (l : List Char) : trimRightL l <+: l := by
  unfold trimRightL
  have h : l.reverse.dropWhile chIsSpace <:+ l.reverse := List.dropWhile_suffix _
  have h2 := List.reverse_prefix.mpr (by simpa using h)
  simpa using h2

theorem trimLeftL_trimRightL (l : List Char) :
    trimLeftL (trimRightL (trimLeftL l)) = trimRightL (trimLeftL l) := by
  rcases htr : trimRightL (trimLeftL l) with _ | ⟨c, t⟩
  · rfl
  · have hpre := trimRightL_prefix (trimLeftL l)
    rw [htr] at hpre
    obtain ⟨r, hr⟩ := hpre
    have hl : l.dropWhile chIsSpace = c :: (t ++ r) := by
      have h2 := hr.symm
      simpa [trimLeftL] using h2
    have hc := dropWhile_head_false hl
    simp [trimLeftL, List.dropWhile_cons, hc]

theorem goTrim_idem (s : String) : goTrim (goTrim s) = goTrim s := by
  unfold goTrim
  rw [strMk_data, trimLeftL_trimRightL]
  rw [show trimRightL (trimRightL (trimLeftL s.data)) = trimRightL (trimLeftL s.data) by
    unfold trimRightL
    rw [List.reverse_reverse, dropWhile_idem]]

theorem stripFromSub_of_not {pat l : List Char} (h : hasSub pat l = false) :
    stripFromSub pat l = l := by
  induction l with
  | nil => rfl
  | cons c t ih =>
    unfold hasSub at h
    rw [Bool.or_eq_false_iff] at h
    unfold stripFromSub
    rw [if_neg (by simp [h.1]), ih h.2]

theorem removeEnum_fix (p : PropertyDoc) (h : hasSub enumPat p.TypeDoc.data = false) :
    removeEnumDeclaration p = p := by
  unfold removeEnumDeclaration
  rw [stripFromSub_of_not h]

theorem extract_fix (p : PropertyDoc) (h1 : deprMatches p.TypeDoc = false)
    (h2 : deprMatches p.FieldDoc = false) :
    extractDeprecatedInformation p = p := by
  simp [extractDeprecatedInformation, h1, h2]

theorem applyGenFmts_idem (p : PropertyDoc)
    (h : markerFree (applyFormatters generateFormatters p)) :
    applyFormatters generateFormatters (applyFormatters generateFormatters p) =
      applyFormatters generateFormatters p := by
  obtain ⟨h1, h2, h3⟩ := h
  show removeTrailingWhitespace (extractDeprecatedInformation (removeEnumDeclaration
      (applyFormatters generateFormatters p))) = _
  rw [removeEnum_fix _ h1, extract_fix _ h2 h3]
  show removeTrailingWhitespace (removeTrailingWhitespace
      (extractDeprecatedInformation (removeEnumDeclaration p))) =
    removeTrailingWhitespace (extractDeprecatedInformation (removeEnumDeclaration p))
  unfold removeTrailingWhitespace
  simp [goTrim_idem]

theorem ppAux_cons (filter : List String) (fmts : List (PropertyDoc → PropertyDoc))
    (q : PropertyDoc) (l : List PropertyDoc) :
    ppAux filter fmts (q :: l) =
      if filter.contains q.Path then ppAux filter fmts l
      else applyFormatters fmts q :: ppAux filter fmts l := by
  conv_lhs => rw [ppAux]

theorem ppAux_idem (filter : List String) (l : List PropertyDoc)
    (hclean : ∀ p ∈ ppAux filter generateFormatters l, markerFree p) :
    ppAux filter generateFormatters (ppAux filter generateFormatters l) =
      ppAux filter generateFormatters l := by
  induction l with
  | nil => rfl
  | cons q l ih =>
    by_cases hq : filter.contains q.Path
    · rw [ppAux_cons, if_pos hq] at hclean ⊢
      exact ih hclean
    · rw [ppAux_cons, if_neg hq] at hclean ⊢
      have hpath : filter.contains (applyFormatters generateFormatters q).Path = false := by
        rw [applyGenFmts_path]
        exact Bool.not_eq_true _ ▸ hq
      rw [ppAux_cons, if_neg (by rw [hpath]; simp)]
      rw [applyGenFmts_idem q (hclean _ (List.mem_cons_self _ _)),
        ih (fun p hp => hclean p (List.mem_cons_of_mem _ hp))]

/-- C6 (amended): post-processing is idempotent on documents that one pass
leaves marker-free — no `ENUM` token in any type doc and no `Deprecated:` line
in any doc field of the processed properties (the transforms are fixed points
on already-clean text).  When both doc fields of a property carry markers this
fails: see `c6_counterexample`. -/
theorem c6_thm (filter : List String) (doc : ObjectDoc)
    (hclean : ∀ p ∈ (postProcessProperties filter doc generateFormatters).Properties,
      markerFree p) :
    postProcessProperties filter (postProcessProperties filter doc generateFormatters)
        generateFormatters =
      postProcessProperties filter doc generateFormatters := by
  unfold postProcessProperties at hclean ⊢
  simp only at hclean ⊢
  rw [ppAux_idem filter doc.Properties hclean]

/-- Witness for `c6_thm`: a document whose single property carries one
deprecation marker in its type doc (the spec's own example shape) is processed
idempotently. -/
theorem c6_witness :
    postProcessProperties [] (postProcessProperties [] oneDeprDoc generateFormatters)
        generateFormatters =
      postProcessProperties [] oneDeprDoc generateFormatters :=
  c6_thm [] oneDeprDoc (by decide)

/-! ## C4/C7 machinery: the walker's paths are the start path plus suffixes -/

theorem strEmpty_append (s : String) : ("") ++ s = s := by
  apply String.ext
  simp [strAppend_data]

theorem map_prepend_assoc (p q : String) (l : List String) :
    (l.map (fun s => q ++ s)).map (fun s => p ++ s) = l.map (fun s => p ++ q ++ s) := by
  rw [List.map_map]
  simp [Function.comp, strAppend_assoc]

theorem pathsOf_append (a b : List PropertyDoc) : pathsOf (a ++ b) = pathsOf a ++ pathsOf b := by
  simp [pathsOf]

theorem pathsOf_cons (x : PropertyDoc) (l : List PropertyDoc) :
    pathsOf (x :: l) = x.Path :: pathsOf l := rfl

theorem mkNode_path (path : String) (ti : TypeInfo) : (mkNode path ti).Path = path := rfl

theorem walk_sfx_fields (env : TypeEnv) (n : Nat)
    (ih : ∀ tid q, (mapGo env n tid q).map pathsOf =
      (sfx env n tid).map (List.map (fun s => q ++ s))) :
    ∀ (p : String) (fs : List StructField),
      (walkFields (fun i q => mapGo env n i q) p fs).map pathsOf =
        (sfxFields (fun i => sfx env n i) fs).map (List.map (fun s => p ++ s)) := by
  intro p fs
  induction fs with
  | nil => rfl
  | cons f fs ihf =>
    cases hsp : goSplit f.tag ',' with
    | nil =>
      simp only [walkFields, sfxFields, hsp]
      exact ihf
    | cons name rest =>
      by_cases hname : name = ("") ∨ name = ("-")
      · have hb : (decide (name = ("")) || decide (name = ("-"))) = true := by
          rcases hname with h | h <;> simp [h]
        simp only [walkFields, sfxFields, hsp, if_pos hb]
        exact ihf
      · have hb2 : ¬((decide (name = ("")) || decide (name = ("-"))) = true) := by
          simp only [Bool.or_eq_true, decide_eq_true_eq]
          exact hname
        simp only [walkFields, sfxFields, hsp, if_neg hb2]
        have hih := ih f.typ (p ++ (".") ++ name)
        rcases hm : mapGo env n f.typ (p ++ (".") ++ name) with _ | a <;>
          rcases hsx : sfx env n f.typ with _ | a2 <;> rw [hm, hsx] at hih
        · rfl
        · exact absurd hih (by simp)
        · exact absurd hih (by simp)
        · rw [Option.map_some', Option.map_some'] at hih
          have hih2 := Option.some.inj hih
          rcases hw : walkFields (fun i q => mapGo env n i q) p fs with _ | b <;>
            rcases hsf : sfxFields (fun i => sfx env n i) fs with _ | b2 <;>
            rw [hw, hsf] at ihf
          · rfl
          · exact absurd ihf (by simp)
          · exact absurd ihf (by simp)
          · rw [Option.map_some', Option.map_some'] at ihf
            have ihf2 := Option.some.inj ihf
            simp only [Option.map_some', Option.some_inj, pathsOf_append, List.map_append,
              hih2, ihf2, map_prepend_assoc, strAppend_assoc, List.map_map, Function.comp_def]

theorem mapGo_sfx_paths (env : TypeEnv) :
    ∀ (fuel tid : Nat) (p : String),
      (mapGo env fuel tid p).map pathsOf =
        (sfx env fuel tid).map (List.map (fun s => p ++ s)) := by
  intro fuel
  induction fuel with
  | zero => intro tid p; rfl
  | succ n ih =>
    intro tid p
    cases h0 : envGet env tid with
    | none => simp [mapGo, sfx, h0]
    | some t0 =>
      cases h1 : envGet env (unwrapPtr tid t0.shape) with
      | none => simp [mapGo, sfx, h0, h1]
      | some t =>
        cases hti : typeinfoGet env (n + 1) (some (unwrapPtr tid t0.shape)) with
        | none => simp [mapGo, sfx, h0, h1, hti]
        | some ti =>
          cases hsh : t.shape with
          | strukt fs =>
            have hw := walk_sfx_fields env n ih p fs
            simp only [mapGo, sfx, h0, h1, hti, hsh]
            rcases hwf : walkFields (fun i q => mapGo env n i q) p fs with _ | b <;>
              rcases hsf : sfxFields (fun i => sfx env n i) fs with _ | b2 <;>
              rw [hwf, hsf] at hw
            · rfl
            · exact absurd hw (by simp)
            · exact absurd hw (by simp)
            · rw [Option.map_some', Option.map_some'] at hw
              have hw2 := Option.some.inj hw
              simp only [Option.map_some', Option.some_inj, pathsOf_cons, mkNode_path,
                List.map_cons, strAppend_right_empty, hw2]
          | slice e =>
            have hih := ih e (p ++ ("[*]"))
            simp only [mapGo, sfx, h0, h1, hti, hsh]
            rcases hm : mapGo env n e (p ++ ("[*]")) with _ | a <;>
              rcases hsx : sfx env n e with _ | a2 <;> rw [hm, hsx] at hih
            · rfl
            · exact absurd hih (by simp)
            · exact absurd hih (by simp)
            · rw [Option.map_some', Option.map_some'] at hih
              have hih2 := Option.some.inj hih
              simp only [Option.map_some', Option.some_inj, pathsOf_cons, mkNode_path,
                List.map_cons, strAppend_right_empty, hih2, map_prepend_assoc]
          | mapping k v =>
            have hihk := ih k (p ++ (".~"))
            have hihv := ih v (p ++ (".*"))
            simp only [mapGo, sfx, h0, h1, hti, hsh]
            rcases hmk : mapGo env n k (p ++ (".~")) with _ | a <;>
              rcases hsk : sfx env n k with _ | a2 <;> rw [hmk, hsk] at hihk
            · rfl
            · exact absurd hihk (by simp)
            · exact absurd hihk (by simp)
            · rw [Option.map_some', Option.map_some'] at hihk
              have hihk2 := Option.some.inj hihk
              rcases hmv : mapGo env n v (p ++ (".*")) with _ | b <;>
                rcases hsv : sfx env n v with _ | b2 <;> rw [hmv, hsv] at hihv
              · rfl
              · exact absurd hihv (by simp)
              · exact absurd hihv (by simp)
              · rw [Option.map_some', Option.map_some'] at hihv
                have hihv2 := Option.some.inj hihv
                simp only [Option.map_some', Option.some_inj, pathsOf_cons, pathsOf_append,
                  mkNode_path, List.map_cons, List.map_append, strAppend_right_empty,
                  hihk2, hihv2, map_prepend_assoc]
          | ptr e =>
            simp [mapGo, sfx, h0, h1, hti, hsh, pathsOf, mkNode, strAppend_right_empty]
          | scalar kk =>
            simp [mapGo, sfx, h0, h1, hti, hsh, pathsOf, mkNode, strAppend_right_empty]

theorem sepFreeL_cons (c : Char) (t : List Char) (h : sepFreeL (c :: t) = true) :
    (c ≠ '.' ∧ c ≠ '[') ∧ sepFreeL t = true := by
  simp only [sepFreeL, List.contains_cons, Bool.and_eq_true, Bool.not_eq_true',
    Bool.or_eq_false_iff, beq_eq_false_iff_ne, ne_eq] at h
  obtain ⟨⟨hd1, hd2⟩, he1, he2⟩ := h
  refine ⟨⟨fun hc => hd1 hc.symm, fun hc => he1 hc.symm⟩, ?_⟩
  simp only [sepFreeL, Bool.and_eq_true, Bool.not_eq_true', hd2, he2]
  exact ⟨trivial, trivial⟩

theorem sep_block_eq_l :
    ∀ (n1 n2 s1 s2 : List Char),
      sepFreeL n1 = true → sepFreeL n2 = true →
      (∀ c t, s1 = c :: t → (c = '.' ∨ c = '[')) →
      (∀ c t, s2 = c :: t → (c = '.' ∨ c = '[')) →
      n1 ++ s1 = n2 ++ s2 → n1 = n2 ∧ s1 = s2 := by
  intro n1
  induction n1 with
  | nil =>
    intro n2 s1 s2 _ hf2 he1 _ heq
    cases n2 with
    | nil => exact ⟨rfl, heq⟩
    | cons d n2' =>
      simp only [List.nil_append, List.cons_append] at heq
      have hd := he1 d (n2' ++ s2) heq
      obtain ⟨⟨hd1, hd2⟩, _⟩ := sepFreeL_cons d n2' hf2
      exact absurd hd (by simp [hd1, hd2])
  | cons c n1' ih =>
    intro n2 s1 s2 hf1 hf2 he1 he2 heq
    cases n2 with
    | nil =>
      simp only [List.cons_append, List.nil_append] at heq
      have hc := he2 c (n1' ++ s1) heq.symm
      obtain ⟨⟨hc1, hc2⟩, _⟩ := sepFreeL_cons c n1' hf1
      exact absurd hc (by simp [hc1, hc2])
    | cons d n2' =>
      simp only [List.cons_append, List.cons.injEq] at heq
      obtain ⟨hcd, heq'⟩ := heq
      subst hcd
      obtain ⟨_, hf1'⟩ := sepFreeL_cons c n1' hf1
      obtain ⟨_, hf2'⟩ := sepFreeL_cons c n2' hf2
      obtain ⟨h1, h2⟩ := ih n2' s1 s2 hf1' hf2' he1 he2 heq'
      exact ⟨by rw [h1], h2⟩

theorem sepHead_data (s : String) (h : s = ("") ∨ sepHeadB s = true) :
    ∀ c t, s.data = c :: t → (c = '.' ∨ c = '[') := by
  intro c t hdata
  rcases h with h | h
  · subst h
    exact absurd hdata (by simp [String.data])
  · simp only [sepHeadB, hdata, Bool.or_eq_true, decide_eq_true_eq] at h
    exact h

theorem sep_block_eq (n1 n2 s1 s2 : String)
    (hf1 : sepFreeL n1.data = true) (hf2 : sepFreeL n2.data = true)
    (he1 : s1 = ("") ∨ sepHeadB s1 = true) (he2 : s2 = ("") ∨ sepHeadB s2 = true)
    (heq : n1 ++ s1 = n2 ++ s2) : n1 = n2 ∧ s1 = s2 := by
  have hd := congrArg String.data heq
  simp only [strAppend_data] at hd
  obtain ⟨h1, h2⟩ := sep_block_eq_l n1.data n2.data s1.data s2.data hf1 hf2
    (sepHead_data s1 he1) (sepHead_data s2 he2) hd
  exact ⟨String.ext h1, String.ext h2⟩

theorem sepHead_append (p s0 : String) (hp : sepHeadB p = true) :
    sepHeadB (p ++ s0) = true := by
  cases hd : p.data with
  | nil =>
    simp only [sepHeadB, hd] at hp
    exact absurd hp (by decide)
  | cons c t =>
    have h2 : (p ++ s0).data = c :: (t ++ s0.data) := by
      rw [strAppend_data, hd, List.cons_append]
    simp only [sepHeadB, h2]
    simp only [sepHeadB, hd] at hp
    exact hp

theorem goodNames_ne_empty (fs : List StructField) : ∀ n ∈ goodNames fs, n ≠ ("") := by
  intro n hn
  simp only [goodNames, List.mem_filterMap] at hn
  obtain ⟨f, _, hf⟩ := hn
  rcases hsp : goSplit f.tag ',' with _ | ⟨m, rest⟩ <;> simp only [goodTagName, hsp] at hf
  · simp at hf
  · by_cases hm : (decide (m = ("")) || decide (m = ("-"))) = true
    · rw [if_pos hm] at hf
      simp at hf
    · rw [if_neg hm] at hf
      have hnm := Option.some.inj hf
      subst hnm
      intro hcon
      exact hm (by simp [hcon])

theorem envGet_mem (env : TypeEnv) (i : Nat) (t : GoType) (h : envGet env i = some t) :
    t ∈ env :=
  List.get?_mem h

theorem sfxFields_spec (g : Nat → Option (List String))
    (hg : ∀ i l0, g i = some l0 → GoodSuffixes l0) :
    ∀ (fs : List StructField) (l : List String),
      sfxFields g fs = some l →
      (goodNames fs).Nodup →
      (∀ n ∈ goodNames fs, sepFreeL n.data = true) →
      l.Nodup ∧
      (∀ s ∈ l, sepHeadB s = true ∧ ∃ n s0, n ∈ goodNames fs ∧ s = (".") ++ n ++ s0 ∧
        (s0 = ("") ∨ sepHeadB s0 = true)) ∧
      (∀ s ∈ l, ∃ s', (s' = ("") ∨ s' ∈ l) ∧ ∃ seg, childSegment seg ∧ s = s' ++ seg) := by
  intro fs
  induction fs with
  | nil =>
    intro l h _ _
    have hl := Option.some.inj h
    subst hl
    exact ⟨List.nodup_nil, by simp, by simp⟩
  | cons f fs ih =>
    intro l h hnd hfree
    rcases hsp : goSplit f.tag ',' with _ | ⟨name, rest⟩
    · simp only [sfxFields, hsp] at h
      have hgt : goodTagName f = none := by simp only [goodTagName, hsp]
      have hgn : goodNames (f :: fs) = goodNames fs := by
        simp [goodNames, List.filterMap_cons, hgt]
      rw [hgn] at hnd hfree ⊢
      exact ih l h hnd hfree
    · by_cases hb : (decide (name = ("")) || decide (name = ("-"))) = true
      · simp only [sfxFields, hsp, if_pos hb] at h
        have hgt : goodTagName f = none := by simp only [goodTagName, hsp, if_pos hb]
        have hgn : goodNames (f :: fs) = goodNames fs := by
          simp [goodNames, List.filterMap_cons, hgt]
        rw [hgn] at hnd hfree ⊢
        exact ih l h hnd hfree
      · simp only [sfxFields, hsp, if_neg hb] at h
        have hgt : goodTagName f = some name := by simp only [goodTagName, hsp, if_neg hb]
        have hgn : goodNames (f :: fs) = name :: goodNames fs := by
          simp [goodNames, List.filterMap_cons, hgt]
        rw [hgn] at hnd hfree ⊢
        rcases hgf : g f.typ with _ | l0 <;> rw [hgf] at h
        · cases h
        · rcases hsf : sfxFields g fs with _ | b <;> rw [hsf] at h
          · cases h
          · have hl := Option.some.inj h
            subst hl
            obtain ⟨hl0nd, _, hl0head, hl0par⟩ := hg f.typ l0 hgf
            have hndtail : (goodNames fs).Nodup := (List.nodup_cons.mp hnd).2
            have hnotmem : name ∉ goodNames fs := (List.nodup_cons.mp hnd).1
            have hfreename : sepFreeL name.data = true := hfree name (by simp)
            have hfreetail : ∀ n ∈ goodNames fs, sepFreeL n.data = true :=
              fun n hn => hfree n (List.mem_cons_of_mem _ hn)
            obtain ⟨hbnd, hbshape, hbpar⟩ := ih b hsf hndtail hfreetail
            have hinj : Function.Injective (fun s => (".") ++ name ++ s) := by
              intro a c hac
              simp only [strAppend_assoc] at hac
              exact strAppend_cancel_left (strAppend_cancel_left hac)
            refine ⟨?_, ?_, ?_⟩
            · refine List.Nodup.append (hl0nd.map hinj) hbnd ?_
              intro s hs1 hs2
              obtain ⟨s0, hs0, hseq⟩ := List.mem_map.mp hs1
              obtain ⟨_, m, s1, hmmem, hseq2, hs1h⟩ := hbshape s hs2
              have heq2 : name ++ s0 = m ++ s1 := by
                apply strAppend_cancel_left (p := ("."))
                rw [← strAppend_assoc, ← strAppend_assoc, ← hseq2, ← hseq]
              obtain ⟨hnm, _⟩ := sep_block_eq name m s0 s1 hfreename
                (hfreetail m hmmem) (hl0head s0 hs0) hs1h heq2
              exact hnotmem (hnm ▸ hmmem)
            · intro s hs
              rcases List.mem_append.mp hs with hs1 | hs2
              · obtain ⟨s0, hs0, hseq⟩ := List.mem_map.mp hs1
                refine ⟨?_, name, s0, by simp, hseq.symm, hl0head s0 hs0⟩
                rw [← hseq, strAppend_assoc]
                exact sepHead_append (".") _ (by decide)
              · obtain ⟨hh, m, s1, hmmem, hseq2, hs1h⟩ := hbshape s hs2
                exact ⟨hh, m, s1, List.mem_cons_of_mem _ hmmem, hseq2, hs1h⟩
            · intro s hs
              rcases List.mem_append.mp hs with hs1 | hs2
              · obtain ⟨s0, hs0, hseq⟩ := List.mem_map.mp hs1
                rcases hl0par s0 hs0 with hs0e | ⟨s0', hs0'mem, seg, hseg, hs0eq⟩
                · refine ⟨(""), Or.inl rfl, (".") ++ name, ?_, ?_⟩
                  · exact Or.inr (Or.inr (Or.inr ⟨name, by
                      intro hc
                      exact hb (by simp [hc]), rfl⟩))
                  · rw [← hseq, hs0e, strEmpty_append, strAppend_right_empty]
                · refine ⟨(".") ++ name ++ s0', Or.inr ?_, seg, hseg, ?_⟩
                  · exact List.mem_append_left _ (List.mem_map.mpr ⟨s0', hs0'mem, rfl⟩)
                  · rw [← hseq, hs0eq, strAppend_assoc, strAppend_assoc, strAppend_assoc]
              · obtain ⟨s', hs'or, seg, hseg, heq⟩ := hbpar s hs2
                rcases hs'or with hse | hsmem
                · exact ⟨s', Or.inl hse, seg, hseg, heq⟩
                · exact ⟨s', Or.inr (List.mem_append_right _ hsmem), seg, hseg, heq⟩

theorem sfx_spec (env : TypeEnv) (henv : EnvNamesOk env) :
    ∀ (fuel tid : Nat) (l : List String), sfx env fuel tid = some l → GoodSuffixes l := by
  intro fuel
  induction fuel with
  | zero =>
    intro tid l h
    simp [sfx] at h
  | succ n ih =>
    intro tid l h
    rcases h0 : envGet env tid with _ | t0
    · simp [sfx, h0] at h
    rcases h1 : envGet env (unwrapPtr tid t0.shape) with _ | t
    · simp [sfx, h0, h1] at h
    rcases hti : typeinfoGet env (n + 1) (some (unwrapPtr tid t0.shape)) with _ | ti
    · simp [sfx, h0, h1, hti] at h
    have htm : t ∈ env := envGet_mem env _ t h1
    have hok : structNamesOk t = true := henv t htm
    cases hsh : t.shape with
    | strukt fs =>
      simp only [sfx, h0, h1, hti, hsh] at h
      rcases hsf : sfxFields (fun i => sfx env n i) fs with _ | l' <;> rw [hsf] at h
      · exact absurd h (by simp)
      · rw [Option.map_some'] at h
        have hl := Option.some.inj h
        subst hl
        have hok' : (decide (goodNames fs).Nodup &&
            (goodNames fs).all (fun m => sepFreeL m.data)) = true := by
          simpa [structNamesOk, hsh] using hok
        rw [Bool.and_eq_true] at hok'
        obtain ⟨hnd', hall⟩ := hok'
        have hnd := of_decide_eq_true hnd'
        have hfree : ∀ m ∈ goodNames fs, sepFreeL m.data = true :=
          fun m hm => List.all_eq_true.mp hall m hm
        obtain ⟨hlnd, hlshape, hlpar⟩ := sfxFields_spec (fun i => sfx env n i)
          (fun i l0 h0' => ih i l0 h0') fs l' hsf hnd hfree
        refine ⟨?_, by simp, ?_, ?_⟩
        · refine List.nodup_cons.mpr ⟨?_, hlnd⟩
          intro hmem
          have hh := (hlshape _ hmem).1
          exact absurd hh (by decide)
        · intro s hs
          rcases List.mem_cons.mp hs with hse | hsm
          · exact Or.inl hse
          · exact Or.inr (hlshape s hsm).1
        · intro s hs
          rcases List.mem_cons.mp hs with hse | hsm
          · exact Or.inl hse
          · obtain ⟨s', hs'or, seg, hseg, heq⟩ := hlpar s hsm
            refine Or.inr ⟨s', ?_, seg, hseg, heq⟩
            rcases hs'or with h' | h'
            · exact h' ▸ List.mem_cons_self _ _
            · exact List.mem_cons_of_mem _ h'
    | slice e =>
      simp only [sfx, h0, h1, hti, hsh] at h
      rcases hse : sfx env n e with _ | l0 <;> rw [hse] at h
      · exact absurd h (by simp)
      · rw [Option.map_some'] at h
        have hl := Option.some.inj h
        subst hl
        obtain ⟨hl0nd, _, hl0head, hl0par⟩ := ih e l0 hse
        have hinj : Function.Injective (fun s => ("[*]") ++ s) :=
          fun a c hac => strAppend_cancel_left hac
        refine ⟨?_, by simp, ?_, ?_⟩
        · refine List.nodup_cons.mpr ⟨?_, hl0nd.map hinj⟩
          intro hmem
          obtain ⟨s0, _, hseq⟩ := List.mem_map.mp hmem
          have hh := sepHead_append ("[*]") s0 (by decide)
          rw [hseq] at hh
          exact absurd hh (by decide)
        · intro s hs
          rcases List.mem_cons.mp hs with hse' | hsm
          · exact Or.inl hse'
          · obtain ⟨s0, _, hseq⟩ := List.mem_map.mp hsm
            refine Or.inr ?_
            rw [← hseq]
            exact sepHead_append ("[*]") s0 (by decide)
        · intro s hs
          rcases List.mem_cons.mp hs with hse' | hsm
          · exact Or.inl hse'
          · obtain ⟨s0, hs0, hseq⟩ := List.mem_map.mp hsm
            rcases hl0par s0 hs0 with h' | ⟨s0', hs0'mem, seg, hseg, hs0eq⟩
            · refine Or.inr ⟨(""), by simp, ("[*]"), Or.inl rfl, ?_⟩
              rw [← hseq, h', strAppend_right_empty, strEmpty_append]
            · refine Or.inr ⟨("[*]") ++ s0', ?_, seg, hseg, ?_⟩
              · exact List.mem_cons_of_mem _ (List.mem_map.mpr ⟨s0', hs0'mem, rfl⟩)
              · rw [← hseq, hs0eq, strAppend_assoc]
    | mapping k v =>
      simp only [sfx, h0, h1, hti, hsh] at h
      rcases hsk : sfx env n k with _ | lk <;> rcases hsv : sfx env n v with _ | lv <;>
        rw [hsk, hsv] at h
      · exact absurd h (by simp)
      · exact absurd h (by simp)
      · exact absurd h (by simp)
      · have hl := Option.some.inj h
        subst hl
        obtain ⟨hknd, _, hkhead, hkpar⟩ := ih k lk hsk
        obtain ⟨hvnd, _, hvhead, hvpar⟩ := ih v lv hsv
        have hinjk : Function.Injective (fun s => (".~") ++ s) :=
          fun a c hac => strAppend_cancel_left hac
        have hinjv : Function.Injective (fun s => (".*") ++ s) :=
          fun a c hac => strAppend_cancel_left hac
        have hdisj : ∀ s, s ∈ lk.map (fun s => (".~") ++ s) →
            s ∈ lv.map (fun s => (".*") ++ s) → False := by
          intro s hs1 hs2
          obtain ⟨s1, _, he1⟩ := List.mem_map.mp hs1
          obtain ⟨s2, _, he2⟩ := List.mem_map.mp hs2
          have heq : (".~") ++ s1 = (".*") ++ s2 := by rw [he1, he2]
          have hd := congrArg String.data heq
          simp only [strAppend_data] at hd
          simp at hd
        refine ⟨?_, by simp, ?_, ?_⟩
        · refine List.nodup_cons.mpr ⟨?_, ?_⟩
          · intro hmem
            rcases List.mem_append.mp hmem with hm1 | hm2
            · obtain ⟨s0, _, hseq⟩ := List.mem_map.mp hm1
              have hh := sepHead_append (".~") s0 (by decide)
              rw [hseq] at hh
              exact absurd hh (by decide)
            · obtain ⟨s0, _, hseq⟩ := List.mem_map.mp hm2
              have hh := sepHead_append (".*") s0 (by decide)
              rw [hseq] at hh
              exact absurd hh (by decide)
          · exact List.Nodup.append (hknd.map hinjk) (hvnd.map hinjv) hdisj
        · intro s hs
          rcases List.mem_cons.mp hs with hse' | hsm
          · exact Or.inl hse'
          · refine Or.inr ?_
            rcases List.mem_append.mp hsm with hm1 | hm2
            · obtain ⟨s0, _, hseq⟩ := List.mem_map.mp hm1
              rw [← hseq]
              exact sepHead_append (".~") s0 (by decide)
            · obtain ⟨s0, _, hseq⟩ := List.mem_map.mp hm2
              rw [← hseq]
              exact sepHead_append (".*") s0 (by decide)
        · intro s hs
          rcases List.mem_cons.mp hs with hse' | hsm
          · exact Or.inl hse'
          · rcases List.mem_append.mp hsm with hm1 | hm2
            · obtain ⟨s0, hs0, hseq⟩ := List.mem_map.mp hm1
              rcases hkpar s0 hs0 with h' | ⟨s0', hs0'mem, seg, hseg, hs0eq⟩
              · refine Or.inr ⟨(""), by simp, (".~"), Or.inr (Or.inl rfl), ?_⟩
                rw [← hseq, h', strAppend_right_empty, strEmpty_append]
              · refine Or.inr ⟨(".~") ++ s0', ?_, seg, hseg, ?_⟩
                · exact List.mem_cons_of_mem _
                    (List.mem_append_left _ (List.mem_map.mpr ⟨s0', hs0'mem, rfl⟩))
                · rw [← hseq, hs0eq, strAppend_assoc]
            · obtain ⟨s0, hs0, hseq⟩ := List.mem_map.mp hm2
              rcases hvpar s0 hs0 with h' | ⟨s0', hs0'mem, seg, hseg, hs0eq⟩
              · refine Or.inr ⟨(""), by simp, (".*"), Or.inr (Or.inr (Or.inl rfl)), ?_⟩
                rw [← hseq, h', strAppend_right_empty, strEmpty_append]
              · refine Or.inr ⟨(".*") ++ s0', ?_, seg, hseg, ?_⟩
                · exact List.mem_cons_of_mem _
                    (List.mem_append_right _ (List.mem_map.mpr ⟨s0', hs0'mem, rfl⟩))
                · rw [← hseq, hs0eq, strAppend_assoc]
    | ptr e =>
      simp only [sfx, h0, h1, hti, hsh] at h
      have hl := Option.some.inj h
      subst hl
      refine ⟨List.nodup_singleton _, by simp, ?_, ?_⟩
      · intro s hs
        exact Or.inl (List.mem_singleton.mp hs)
      · intro s hs
        exact Or.inl (List.mem_singleton.mp hs)
    | scalar kk =>
      simp only [sfx, h0, h1, hti, hsh] at h
      have hl := Option.some.inj h
      subst hl
      refine ⟨List.nodup_singleton _, by simp, ?_, ?_⟩
      · intro s hs
        exact Or.inl (List.mem_singleton.mp hs)
      · intro s hs
        exact Or.inl (List.mem_singleton.mp hs)

theorem pathsOf_update (props : List PropertyDoc) :
    pathsOf (props.map (fun p =>
      { p with ChildrenPaths := findPropertyChildrenPaths p.Path props })) = pathsOf props := by
  simp only [pathsOf, List.map_map]
  rfl

/-- C7 (amended): in a generated document over a type graph whose structs have
pairwise-distinct, separator-free walked member output names, all property
paths are pairwise distinct, and every non-root property path extends another
property path by exactly one child segment. -/
theorem c7_thm (env : TypeEnv) (fuel tid : Nat) (doc : ObjectDoc)
    (henv : EnvNamesOk env)
    (h : generateObjectDocF env fuel tid = some doc) :
    (pathsOf doc.Properties).Nodup ∧
    (∀ q ∈ pathsOf doc.Properties, q = ("$") ∨
      ∃ q' ∈ pathsOf doc.Properties, ∃ seg, childSegment seg ∧ q = q' ++ seg) := by
  rcases hm : mapGo env fuel (rootUnwrap env tid) ("$") with _ | props
  · simp [generateObjectDocF, hm] at h
  · simp only [generateObjectDocF, hm] at h
    have hd := Option.some.inj h
    have hprop : doc.Properties = props.map (fun p =>
        { p with ChildrenPaths := findPropertyChildrenPaths p.Path props }) := by
      rw [← hd]
    rw [hprop, pathsOf_update]
    have hcorr := mapGo_sfx_paths env fuel (rootUnwrap env tid) ("$")
    rcases hsx : sfx env fuel (rootUnwrap env tid) with _ | l2 <;> rw [hm, hsx] at hcorr
    · exact absurd hcorr (by simp)
    · rw [Option.map_some', Option.map_some'] at hcorr
      have hpaths := Option.some.inj hcorr
      obtain ⟨hnd, _, _, hpar⟩ := sfx_spec env henv fuel (rootUnwrap env tid) l2 hsx
      have hinj : Function.Injective (fun s => ("$") ++ s) :=
        fun a c hac => strAppend_cancel_left hac
      rw [hpaths]
      constructor
      · exact hnd.map hinj
      · intro q hq
        obtain ⟨s, hsmem, hseq⟩ := List.mem_map.mp hq
        rcases hpar s hsmem with h' | ⟨s', hs'mem, seg, hseg, hseq2⟩
        · left
          rw [← hseq, h', strAppend_right_empty]
        · right
          refine ⟨("$") ++ s', List.mem_map.mpr ⟨s', hs'mem, rfl⟩, seg, hseg, ?_⟩
          rw [← hseq, hseq2, strAppend_assoc]

theorem c7_witness :
    EnvNamesOk envPlain ∧
    ∃ doc, generateObjectDocF envPlain 3 0 = some doc ∧ (pathsOf doc.Properties).Nodup :=
  ⟨by decide, _, rfl, (c7_thm envPlain 3 0 _ (by decide) rfl).1⟩

/-- C4 (amended): the structural walker skips an externally-visible struct
member whose first json-tag component is empty (as it is for a member with no
serialization annotation): no property node appears at
`parent + "." + declaredFieldName` for such a member, provided no sibling's
walked output name equals the declared name. -/
theorem c4_thm (env : TypeEnv) (fuel tid : Nat) (t : GoType) (fs : List StructField)
    (f : StructField) (p : String) (l : List PropertyDoc)
    (henv : EnvNamesOk env)
    (ht : envGet env tid = some t) (hsh : t.shape = .strukt fs)
    (_hf : f ∈ fs) (_hgt : goodTagName f = none)
    (hfree : sepFreeL f.name.data = true) (_hne : f.name ≠ (""))
    (hnm : f.name ∉ goodNames fs)
    (hm : mapGo env fuel tid p = some l) :
    (p ++ (".") ++ f.name) ∉ pathsOf l := by
  cases fuel with
  | zero => simp [mapGo] at hm
  | succ n =>
    have hun : unwrapPtr tid (TypeShape.strukt fs) = tid := rfl
    rcases hti : typeinfoGet env (n + 1) (some tid) with _ | ti
    · simp [mapGo, ht, hsh, hun, hti] at hm
    · simp only [mapGo, ht, hsh, hun, hti] at hm
      rcases hw : walkFields (fun i q => mapGo env n i q) p fs with _ | l' <;> rw [hw] at hm
      · exact absurd hm (by simp)
      · rw [Option.map_some'] at hm
        have hl := Option.some.inj hm
        subst hl
        have hcorr := walk_sfx_fields env n (fun tid' q => mapGo_sfx_paths env n tid' q) p fs
        rcases hsf : sfxFields (fun i => sfx env n i) fs with _ | l2 <;> rw [hw, hsf] at hcorr
        · exact absurd hcorr (by simp)
        · rw [Option.map_some', Option.map_some'] at hcorr
          have hpaths := Option.some.inj hcorr
          have htm : t ∈ env := envGet_mem env tid t ht
          have hok : structNamesOk t = true := henv t htm
          have hok' : (decide (goodNames fs).Nodup &&
              (goodNames fs).all (fun m => sepFreeL m.data)) = true := by
            simpa [structNamesOk, hsh] using hok
          rw [Bool.and_eq_true] at hok'
          obtain ⟨hnd', hall⟩ := hok'
          have hnd := of_decide_eq_true hnd'
          have hfreeAll : ∀ m ∈ goodNames fs, sepFreeL m.data = true :=
            fun m hmm => List.all_eq_true.mp hall m hmm
          obtain ⟨_, hlshape, _⟩ := sfxFields_spec (fun i => sfx env n i)
            (fun i l0 h0' => sfx_spec env henv n i l0 h0') fs l2 hsf hnd hfreeAll
          rw [pathsOf_cons, mkNode_path, hpaths]
          intro hmem
          rcases List.mem_cons.mp hmem with he | hin
          · have h1 : p ++ ((".") ++ f.name) = p ++ ("") := by
              rw [← strAppend_assoc, strAppend_right_empty]
              exact he
            have h2 := strAppend_cancel_left h1
            have hdd := congrArg String.data h2
            simp [strAppend_data] at hdd
          · obtain ⟨s, hsmem, hseq⟩ := List.mem_map.mp hin
            have hs2 : s = (".") ++ f.name := by
              apply strAppend_cancel_left (p := p)
              rw [hseq, strAppend_assoc]
            obtain ⟨_, m, s0, hmmem, hseq2, hs0h⟩ := hlshape s hsmem
            have h3 : f.name ++ ("") = m ++ s0 := by
              rw [strAppend_right_empty]
              apply strAppend_cancel_left (p := ("."))
              rw [← strAppend_assoc, ← hseq2, hs2]
            obtain ⟨hfm, _⟩ := sep_block_eq f.name m ("") s0 hfree
              (hfreeAll m hmmem) (Or.inl rfl) hs0h h3
            exact hnm (hfm ▸ hmmem)

theorem c4_witness :
    EnvNamesOk envNoTag ∧
    ∃ l, mapGo envNoTag 2 0 ("$") = some l ∧ (("$") ++ (".") ++ ("NoTag")) ∉ pathsOf l :=
  ⟨by decide, _, rfl,
    c4_thm envNoTag 2 0 noTagT
      [{ name := ("NoTag"), tag := (""), exported := true, typ := 1 }]
      { name := ("NoTag"), tag := (""), exported := true, typ := 1 }
      ("$") _ (by decide) rfl rfl (List.mem_singleton.mpr rfl) rfl (by decide) (by decide)
      (by decide) rfl⟩

/-! ## C1 machinery: both recursions terminate on acyclic type graphs -/

theorem envGet_of_lt (env : TypeEnv) (i : Nat) (h : i < env.length) :
    ∃ t, envGet env i = some t :=
  ⟨env.get ⟨i, h⟩, List.get?_eq_get h⟩

theorem shapeRef_lt (env : TypeEnv) (hwf : WfEnv env) (i : Nat) (t : GoType)
    (h : envGet env i = some t) : ∀ j ∈ shapeRefs t.shape, j < env.length :=
  fun j hj => hwf (i, t)
    (List.mem_enum_iff_getElem?.mpr (by rw [← List.get?_eq_getElem?]; exact h)) j hj

theorem shapeRef_rk (env : TypeEnv) (rk : Nat → Nat) (hrk : RankOk env rk) (i : Nat)
    (t : GoType) (h : envGet env i = some t) : ∀ j ∈ shapeRefs t.shape, rk j < rk i :=
  fun j hj => hrk (i, t)
    (List.mem_enum_iff_getElem?.mpr (by rw [← List.get?_eq_getElem?]; exact h)) j hj

theorem unwrapPtr_facts (env : TypeEnv) (rk : Nat → Nat) (hwf : WfEnv env) (hrk : RankOk env rk)
    (tid : Nat) (t0 : GoType) (ht0 : envGet env tid = some t0) (hlen : tid < env.length) :
    unwrapPtr tid t0.shape < env.length ∧ rk (unwrapPtr tid t0.shape) ≤ rk tid := by
  cases hsh0 : t0.shape with
  | ptr e =>
    have hmem : e ∈ shapeRefs t0.shape := by
      rw [hsh0]
      simp [shapeRefs]
    exact ⟨shapeRef_lt env hwf tid t0 ht0 e hmem,
           Nat.le_of_lt (shapeRef_rk env rk hrk tid t0 ht0 e hmem)⟩
  | slice e => exact ⟨hlen, Nat.le_refl _⟩
  | mapping k v => exact ⟨hlen, Nat.le_refl _⟩
  | strukt fs => exact ⟨hlen, Nat.le_refl _⟩
  | scalar s => exact ⟨hlen, Nat.le_refl _⟩

theorem unwrapPtrSlice_facts (env : TypeEnv) (rk : Nat → Nat) (hwf : WfEnv env)
    (hrk : RankOk env rk) (tid : Nat) (t0 : GoType) (ht0 : envGet env tid = some t0)
    (hlen : tid < env.length) :
    unwrapPtrSlice tid t0.shape < env.length ∧ rk (unwrapPtrSlice tid t0.shape) ≤ rk tid := by
  cases hsh0 : t0.shape with
  | ptr e =>
    have hmem : e ∈ shapeRefs t0.shape := by
      rw [hsh0]
      simp [shapeRefs]
    exact ⟨shapeRef_lt env hwf tid t0 ht0 e hmem,
           Nat.le_of_lt (shapeRef_rk env rk hrk tid t0 ht0 e hmem)⟩
  | slice e =>
    have hmem : e ∈ shapeRefs t0.shape := by
      rw [hsh0]
      simp [shapeRefs]
    exact ⟨shapeRef_lt env hwf tid t0 ht0 e hmem,
           Nat.le_of_lt (shapeRef_rk env rk hrk tid t0 ht0 e hmem)⟩
  | mapping k v => exact ⟨hlen, Nat.le_refl _⟩
  | strukt fs => exact ⟨hlen, Nat.le_refl _⟩
  | scalar s => exact ⟨hlen, Nat.le_refl _⟩

theorem gk_total (env : TypeEnv) (rk : Nat → Nat) (hwf : WfEnv env) (hrk : RankOk env rk) :
    ∀ (b : Nat) (tid : Nat), rk tid < b → tid < env.length →
      ∀ fuel, rk tid < fuel → (getKindString env fuel tid).isSome = true := by
  intro b
  induction b with
  | zero =>
    intro tid h
    exact absurd h (Nat.not_lt_zero _)
  | succ m ihb =>
    intro tid hb hlen fuel hfuel
    cases fuel with
    | zero => exact absurd hfuel (Nat.not_lt_zero _)
    | succ n =>
      obtain ⟨t, ht⟩ := envGet_of_lt env tid hlen
      have hrefl := shapeRef_lt env hwf tid t ht
      have hrefr := shapeRef_rk env rk hrk tid t ht
      cases hsh : t.shape with
      | mapping k v =>
        have hkmem : k ∈ shapeRefs t.shape := by
          rw [hsh]
          simp [shapeRefs]
        have hvmem : v ∈ shapeRefs t.shape := by
          rw [hsh]
          simp [shapeRefs]
        have hk1 := hrefr k hkmem
        have hv1 := hrefr v hvmem
        have h1 := ihb k (by omega) (hrefl k hkmem) n (by omega)
        have h2 := ihb v (by omega) (hrefl v hvmem) n (by omega)
        rcases hk : getKindString env n k with _ | ks
        · rw [hk] at h1
          simp at h1
        · rcases hv : getKindString env n v with _ | vs
          · rw [hv] at h2
            simp at h2
          · simp [getKindString, ht, hsh, hk, hv]
      | slice e =>
        have hmem : e ∈ shapeRefs t.shape := by
          rw [hsh]
          simp [shapeRefs]
        have he1 := hrefr e hmem
        have h1 := ihb e (by omega) (hrefl e hmem) n (by omega)
        rcases hk : getKindString env n e with _ | es
        · rw [hk] at h1
          simp at h1
        · simp [getKindString, ht, hsh, hk]
      | ptr e => simp [getKindString, ht, hsh]
      | strukt fs => simp [getKindString, ht, hsh]
      | scalar kk => simp [getKindString, ht, hsh]

theorem typeinfoGet_total (env : TypeEnv) (rk : Nat → Nat) (hwf : WfEnv env)
    (hrk : RankOk env rk) (tid : Nat) (hlen : tid < env.length)
    (fuel : Nat) (hfuel : rk tid < fuel) :
    (typeinfoGet env fuel (some tid)).isSome = true := by
  obtain ⟨t0, ht0⟩ := envGet_of_lt env tid hlen
  obtain ⟨hulen, hurk⟩ := unwrapPtr_facts env rk hwf hrk tid t0 ht0 hlen
  obtain ⟨t, ht⟩ := envGet_of_lt env _ hulen
  have hgk := gk_total env rk hwf hrk (rk (unwrapPtr tid t0.shape) + 1)
    (unwrapPtr tid t0.shape) (Nat.lt_succ_self _) hulen fuel (by omega)
  rcases hk : getKindString env fuel (unwrapPtr tid t0.shape) with _ | kind
  · rw [hk] at hgk
    simp at hgk
  · by_cases hpkg : t.pkgPath = ("")
    · cases hsh : t.shape with
      | slice e =>
        have hmem : e ∈ shapeRefs t.shape := by
          rw [hsh]
          simp [shapeRefs]
        have helen := shapeRef_lt env hwf _ t ht e hmem
        obtain ⟨te, hte⟩ := envGet_of_lt env e helen
        by_cases hpkg2 : te.pkgPath = ("")
        · simp [typeinfoGet, ht0, ht, hk, hsh, hpkg, hte, hpkg2]
        · simp [typeinfoGet, ht0, ht, hk, hsh, hpkg, hte, hpkg2]
      | ptr e => simp [typeinfoGet, ht0, ht, hk, hsh, hpkg]
      | mapping k v => simp [typeinfoGet, ht0, ht, hk, hsh, hpkg]
      | strukt fs => simp [typeinfoGet, ht0, ht, hk, hsh, hpkg]
      | scalar kk => simp [typeinfoGet, ht0, ht, hk, hsh, hpkg]
    · simp [typeinfoGet, ht0, ht, hk, hpkg]

theorem walkFields_total (g : Nat → String → Option (List PropertyDoc)) (p : String) :
    ∀ (fs : List StructField),
      (∀ f ∈ fs, ∀ q, (g f.typ q).isSome = true) →
      (walkFields g p fs).isSome = true := by
  intro fs
  induction fs with
  | nil =>
    intro _
    rfl
  | cons f fs ihf =>
    intro hall
    have hrest := ihf (fun f' hf' q => hall f' (List.mem_cons_of_mem _ hf') q)
    rcases hsp : goSplit f.tag ',' with _ | ⟨name, rest⟩
    · simp only [walkFields, hsp]
      exact hrest
    · by_cases hb : (decide (name = ("")) || decide (name = ("-"))) = true
      · simp only [walkFields, hsp, if_pos hb]
        exact hrest
      · have hg := hall f (List.mem_cons_self _ _) (p ++ (".") ++ name)
        rcases hgf : g f.typ (p ++ (".") ++ name) with _ | a
        · rw [hgf] at hg
          simp at hg
        · rcases hw : walkFields g p fs with _ | b
          · rw [hw] at hrest
            simp at hrest
          · simp only [walkFields, hsp, if_neg hb, hgf, hw, Option.isSome_some]

theorem mapGo_total (env : TypeEnv) (rk : Nat → Nat) (hwf : WfEnv env) (hrk : RankOk env rk) :
    ∀ (b : Nat) (tid : Nat), rk tid < b → tid < env.length →
      ∀ fuel, rk tid < fuel → ∀ p, (mapGo env fuel tid p).isSome = true := by
  intro b
  induction b with
  | zero =>
    intro tid h
    exact absurd h (Nat.not_lt_zero _)
  | succ m ihb =>
    intro tid hb hlen fuel hfuel p
    cases fuel with
    | zero => exact absurd hfuel (Nat.not_lt_zero _)
    | succ n =>
      obtain ⟨t0, ht0⟩ := envGet_of_lt env tid hlen
      obtain ⟨hulen, hurk⟩ := unwrapPtr_facts env rk hwf hrk tid t0 ht0 hlen
      obtain ⟨t, ht⟩ := envGet_of_lt env _ hulen
      have hti := typeinfoGet_total env rk hwf hrk _ hulen (n + 1) (by omega)
      rcases htik : typeinfoGet env (n + 1) (some (unwrapPtr tid t0.shape)) with _ | ti
      · rw [htik] at hti
        simp at hti
      · have hrefl := shapeRef_lt env hwf _ t ht
        have hrefr := shapeRef_rk env rk hrk _ t ht
        cases hsh : t.shape with
        | strukt fs =>
          have hwalk := walkFields_total (fun i q => mapGo env n i q) p fs (by
            intro f hf q
            have hmem : f.typ ∈ shapeRefs t.shape := by
              rw [hsh]
              simp only [shapeRefs, List.mem_map]
              exact ⟨f, hf, rfl⟩
            have h1 := hrefr f.typ hmem
            exact ihb f.typ (by omega) (hrefl f.typ hmem) n (by omega) q)
          rcases hw : walkFields (fun i q => mapGo env n i q) p fs with _ | l'
          · rw [hw] at hwalk
            simp at hwalk
          · simp [mapGo, ht0, ht, htik, hsh, hw]
        | slice e =>
          have hmem : e ∈ shapeRefs t.shape := by
            rw [hsh]
            simp [shapeRefs]
          have h1 := hrefr e hmem
          have he := ihb e (by omega) (hrefl e hmem) n (by omega) (p ++ ("[*]"))
          rcases hme : mapGo env n e (p ++ ("[*]")) with _ | a
          · rw [hme] at he
            simp at he
          · simp [mapGo, ht0, ht, htik, hsh, hme]
        | mapping k v =>
          have hkmem : k ∈ shapeRefs t.shape := by
            rw [hsh]
            simp [shapeRefs]
          have hvmem : v ∈ shapeRefs t.shape := by
            rw [hsh]
            simp [shapeRefs]
          have hk1 := hrefr k hkmem
          have hv1 := hrefr v hvmem
          have hkk := ihb k (by omega) (hrefl k hkmem) n (by omega) (p ++ (".~"))
          have hvv := ihb v (by omega) (hrefl v hvmem) n (by omega) (p ++ (".*"))
          rcases hmk : mapGo env n k (p ++ (".~")) with _ | a
          · rw [hmk] at hkk
            simp at hkk
          · rcases hmv : mapGo env n v (p ++ (".*")) with _ | b'
            · rw [hmv] at hvv
              simp at hvv
            · simp [mapGo, ht0, ht, htik, hsh, hmk, hmv]
        | ptr e => simp [mapGo, ht0, ht, htik, hsh]
        | scalar kk => simp [mapGo, ht0, ht, htik, hsh]

theorem parseFieldsAux_total
    (pf : Nat → Docs → List String → Option (Except ParseErr (Doc × Docs × List String)))
    (render : String → String → String) (sn pk : String) (astMap : List (String × String)) :
    ∀ (fs : List StructField),
      (∀ f ∈ fs, ∀ d lg, (pf f.typ d lg).isSome = true) →
      ∀ sf docs log, (parseFieldsAux pf render sn pk astMap fs sf docs log).isSome = true := by
  intro fs
  induction fs with
  | nil =>
    intro _ sf docs log
    rfl
  | cons f fs ihf =>
    intro hall sf docs log
    have hr := hall f (List.mem_cons_self _ _) docs log
    have hrest := ihf (fun f' hf' d lg => hall f' (List.mem_cons_of_mem _ hf') d lg)
    rcases hpf : pf f.typ docs log with _ | r
    · rw [hpf] at hr
      simp at hr
    · cases r with
      | error e => simp [parseFieldsAux, hpf]
      | ok tr =>
        obtain ⟨fieldDoc, docs', log'⟩ := tr
        by_cases hn : getStructFieldName f = ("")
        · simpa [parseFieldsAux, hpf, hn] using hrest sf docs' log'
        · simpa [parseFieldsAux, hpf, hn] using hrest _ docs' log'

theorem parse_total (env : TypeEnv) (st : Store) (render : String → String → String)
    (rk : Nat → Nat) (hwf : WfEnv env) (hrk : RankOk env rk) :
    ∀ (b : Nat) (tid : Nat), rk tid < b → tid < env.length →
      ∀ fuel, rk tid < fuel → ∀ docs log,
        (parse env st render fuel tid docs log).isSome = true := by
  intro b
  induction b with
  | zero =>
    intro tid h
    exact absurd h (Nat.not_lt_zero _)
  | succ m ihb =>
    intro tid hb hlen fuel hfuel docs log
    cases fuel with
    | zero => exact absurd hfuel (Nat.not_lt_zero _)
    | succ n =>
      obtain ⟨t0, ht0⟩ := envGet_of_lt env tid hlen
      obtain ⟨hulen, hurk⟩ := unwrapPtrSlice_facts env rk hwf hrk tid t0 ht0 hlen
      obtain ⟨t, ht⟩ := envGet_of_lt env _ hulen
      by_cases hpkg : t.pkgPath = ("")
      · simp [parse, ht0, ht, hpkg]
      · cases hcont : st.pkgs.contains t.pkgPath with
        | false =>
          have hnmem : t.pkgPath ∉ st.pkgs := by simpa using hcont
          simp [parse, ht0, ht, hpkg, hcont, hnmem]
        | true =>
          have hmem2 : t.pkgPath ∈ st.pkgs := by simpa using hcont
          rcases hdl : declLookup st t.pkgPath t.name with _ | decl
          · simp [parse, ht0, ht, hpkg, hcont, hmem2, hdl]
          · cases hsh : t.shape with
            | strukt fields =>
              cases hspec : decl.spec with
              | otherSpec => simp [parse, ht0, ht, hpkg, hcont, hmem2, hdl, hsh, hspec]
              | structSpec astFields =>
                have hrefl := shapeRef_lt env hwf _ t ht
                have hrefr := shapeRef_rk env rk hrk _ t ht
                have hfa := parseFieldsAux_total (fun i d l => parse env st render n i d l)
                  render t.name t.pkgPath (buildASTFieldMap astFields) fields (by
                    intro f hf d lg
                    have hmem : f.typ ∈ shapeRefs t.shape := by
                      rw [hsh]
                      simp only [shapeRefs, List.mem_map]
                      exact ⟨f, hf, rfl⟩
                    have h1 := hrefr f.typ hmem
                    exact ihb f.typ (by omega) (hrefl f.typ hmem) n (by omega) d lg)
                  [] docs log
                rcases hfr : parseFieldsAux (fun i d l => parse env st render n i d l)
                    render t.name t.pkgPath (buildASTFieldMap astFields) fields [] docs log
                    with _ | r
                · rw [hfr] at hfa
                  simp at hfa
                · cases r with
                  | error e => simp [parse, ht0, ht, hpkg, hcont, hmem2, hdl, hsh, hspec, hfr]
                  | ok tr =>
                    obtain ⟨sf, docs', log'⟩ := tr
                    simp [parse, ht0, ht, hpkg, hcont, hmem2, hdl, hsh, hspec, hfr]
            | ptr e => simp [parse, ht0, ht, hpkg, hcont, hmem2, hdl, hsh]
            | slice e => simp [parse, ht0, ht, hpkg, hcont, hmem2, hdl, hsh]
            | mapping k v => simp [parse, ht0, ht, hpkg, hcont, hmem2, hdl, hsh]
            | scalar kk => simp [parse, ht0, ht, hpkg, hcont, hmem2, hdl, hsh]

/-- C1 (amended): on an acyclic type graph — one admitting a rank function that
strictly decreases along every type reference — both the walker `Map` and the
correlator `parse` terminate: fuel exceeding the root's rank always yields a
result.  (The counterexample shows both diverge on a self-referential type.) -/
theorem c1_thm (env : TypeEnv) (st : Store) (render : String → String → String)
    (rk : Nat → Nat) (tid : Nat) (p : String) (docs : Docs) (log : List String)
    (hwf : WfEnv env) (hrk : RankOk env rk) (hlen : tid < env.length) :
    (mapGo env (rk tid + 1) tid p).isSome = true ∧
    (parse env st render (rk tid + 1) tid docs log).isSome = true :=
  ⟨mapGo_total env rk hwf hrk (rk tid + 1) tid (Nat.lt_succ_self _) hlen
      (rk tid + 1) (Nat.lt_succ_self _) p,
   parse_total env st render rk hwf hrk (rk tid + 1) tid (Nat.lt_succ_self _) hlen
      (rk tid + 1) (Nat.lt_succ_self _) docs log⟩

theorem c1_witness :
    WfEnv envPlain ∧ RankOk envPlain (fun i => 1 - i) ∧
    (mapGo envPlain 2 0 ("$")).isSome = true ∧
    (parse envPlain storeNode renderId 2 0 [] []).isSome = true :=
  ⟨by decide, by decide,
    (c1_thm envPlain storeNode renderId (fun i => 1 - i) 0 ("$") [] []
      (by decide) (by decide) (by decide)).1,
    (c1_thm envPlain storeNode renderId (fun i => 1 - i) 0 ("$") [] []
      (by decide) (by decide) (by decide)).2⟩

end Govydoc
